import Mathlib

/-!
Verification of the graph core of the Smart Route Finder
(src/miniproject.py, class GraphRouteFinder).

The Python program stores an undirected weighted graph as a dict mapping a
node label to a dict mapping neighbor labels to numeric weights.  We embed
dicts as insertion-ordered association lists (`NMap`): lookup returns the
first matching entry, insertion replaces the first matching entry in place
or appends a fresh entry at the end, and deletion removes the first
matching entry.  This matches CPython dict semantics (whose keys are unique,
captured by the well-formedness predicate `WFB`).

Numeric weights are embedded as rationals.  Python float infinity is
embedded by `Option`: `none` stands for the initial infinite tentative
distance, `some d` for a finite distance `d`.

The functions `dijkstra`, `add-edge-style` operations below are direct
translations of `GraphRouteFinder.dijkstra`, `add_edge`, `remove_edge` and
`load_default_graph`.  The two loops of `dijkstra` (the priority-queue loop
and the parent-chain reconstruction loop) are written with an explicit fuel
parameter, since Lean functions must be total; distinguished results
`fuelOut` mark fuel exhaustion and `keyErr` marks a Python dict KeyError.
Theorems below prove that the fuel chosen in `dijkstra` is never exhausted,
so the embedding agrees with the Python code wherever the latter returns.
-/

abbrev Node := String
abbrev Wt := ℚ
abbrev NMap (α : Type) := List (Node × α)

namespace NMap

/-- Dict lookup: first entry with the given key. -/
def find? {α : Type} : NMap α → Node → Option α
  | [], _ => none
  | (k, v) :: rest, k' => if k' = k then some v else find? rest k'

/-- Dict assignment `m[k] = v`: replace the first entry with key `k` in
place, or append a fresh entry at the end. -/
def insert {α : Type} : NMap α → Node → α → NMap α
  | [], k, v => [(k, v)]
  | (k', v') :: rest, k, v =>
    if k = k' then (k, v) :: rest else (k', v') :: insert rest k v

/-- Dict deletion `del m[k]`: remove the first entry with key `k`. -/
def erase {α : Type} : NMap α → Node → NMap α
  | [], _ => []
  | (k', v') :: rest, k => if k = k' then rest else (k', v') :: erase rest k

/-- The keys of the map, in insertion order. -/
def keys {α : Type} (m : NMap α) : List Node := m.map Prod.fst

end NMap

/-- A graph is a dict from node label to adjacency dict (miniproject.py line 12). -/
abbrev Graph := NMap (NMap Wt)

/-- Weight of the edge from `x` to `y` as stored: `graph[x][y]` when both
lookups succeed. -/
def lookup2 (g : Graph) (x y : Node) : Option Wt :=
  match g.find? x with
  | none => none
  | some adj => adj.find? y

/-- One weight assignment `graph[u][v] = w` of `add_edge` (lines 91 and 92
are each one such statement; `u` is always a key when they run). -/
def setW (m : Graph) (u v : Node) (w : Wt) : Graph :=
  m.insert u (((m.find? u).getD []).insert v w)

/-- Source translation of `GraphRouteFinder.add_edge` (lines 84-92): create
missing endpoints, then set the weight in both directions. -/
def addEdge (g : Graph) (a b : Node) (w : Wt) : Graph :=
  let g1 := if (g.find? a).isSome then g else g.insert a []
  let g2 := if (g1.find? b).isSome then g1 else g1.insert b []
  setW (setW g2 a b w) b a w

/-- One guarded deletion of `remove_edge`: if `u` is a graph key and `v` a
key of its adjacency dict, delete `graph[u][v]` (lines 96-97 and 98-99 are
each one such statement). -/
def delHalf (m : Graph) (u v : Node) : Graph :=
  match m.find? u with
  | some adj => if (adj.find? v).isSome then m.insert u (adj.erase v) else m
  | none => m

/-- Source translation of `GraphRouteFinder.remove_edge` (lines 94-99):
delete the edge in each direction when present. -/
def removeEdge (g : Graph) (a b : Node) : Graph :=
  delHalf (delHalf g a b) b a

/-- Source translation of `GraphRouteFinder.get_nodes` (lines 101-103). -/
def getNodes (g : Graph) : List Node := g.keys

/-- The default graph of `load_default_graph` (lines 18-25). -/
def defaultGraph : Graph :=
  [("A", [("B", 4), ("C", 2)]),
   ("B", [("A", 4), ("C", 1), ("D", 5)]),
   ("C", [("A", 2), ("B", 1), ("D", 8), ("E", 10)]),
   ("D", [("B", 5), ("C", 8), ("E", 2), ("F", 6)]),
   ("E", [("C", 10), ("D", 2), ("F", 2)]),
   ("F", [("D", 6), ("E", 2)])]

/-- The weight validation performed by the GUI handler `add_edge_handler`
(lines 297-299) before it calls `add_edge`: the weight is accepted exactly
when it is strictly positive. -/
def handlerWeightOk (w : Wt) : Bool := decide (0 < w)

/-- Comparison `new_dist < dist[neighbor]` where the right side may be the
initial float infinity (`none`). -/
def ltO (x : Wt) : Option Wt → Bool
  | none => true
  | some y => decide (x < y)

/-- Lexicographic comparison of character lists by code point, the order
Python uses to compare the node strings inside heap tuples. -/
def strLtB : List Char → List Char → Bool
  | [], [] => false
  | [], _ :: _ => true
  | _ :: _, [] => false
  | c :: cs, d :: ds =>
    if c.val < d.val then true
    else if d.val < c.val then false
    else strLtB cs ds

/-- Python string comparison of node labels: strictly less or equal. -/
def nodeLeB (a b : Node) : Bool := strLtB a.data b.data || a == b

/-- Lexicographic comparison of heap entries `(distance, node)`, matching
Python tuple comparison used by heapq. -/
def pqLeB (a b : Wt × Node) : Bool :=
  decide (a.1 < b.1) || (decide (a.1 = b.1) && nodeLeB a.2 b.2)

/-- The smaller of two heap entries under lexicographic order. -/
def pqMin (a b : Wt × Node) : Wt × Node := if pqLeB a b then a else b

/-- The minimal entry of a nonempty heap. -/
def findMin (x : Wt × Node) (xs : List (Wt × Node)) : Wt × Node :=
  xs.foldl pqMin x

/-- Remove the first occurrence of an element from a list. -/
def removeFirst : List (Wt × Node) → (Wt × Node) → List (Wt × Node)
  | [], _ => []
  | y :: ys, z => if y = z then ys else y :: removeFirst ys z

/-- Model of `heapq.heappop`: return the minimal entry (Python tuple order)
and the remaining entries. -/
def popMin (x : Wt × Node) (xs : List (Wt × Node)) :
    (Wt × Node) × List (Wt × Node) :=
  let m := findMin x xs
  (m, removeFirst (x :: xs) m)

/-- Result of the relaxation pass over the neighbors of the current node:
`none` models the KeyError raised by `dist[neighbor]` when the neighbor is
not a key of the distance dict. -/
def relaxAll (cur : Node) (cd : Wt) (vis : List Node) :
    List (Node × Wt) → List (Wt × Node) → NMap (Option Wt) →
    NMap (Option Node) →
    Option (List (Wt × Node) × NMap (Option Wt) × NMap (Option Node))
  | [], pq, dist, par => some (pq, dist, par)
  | (nbr, w) :: rest, pq, dist, par =>
    if nbr ∈ vis then relaxAll cur cd vis rest pq dist par
    else
      match dist.find? nbr with
      | none => none
      | some dOld =>
        if ltO (cd + w) dOld then
          relaxAll cur cd vis rest (pq ++ [(cd + w, nbr)])
            (dist.insert nbr (some (cd + w))) (par.insert nbr (some cur))
        else relaxAll cur cd vis rest pq dist par

/-- Outcome of the main loop. -/
inductive LoopRes
  | ok (dist : NMap (Option Wt)) (par : NMap (Option Node))
  | keyErr
  | fuelOut
deriving DecidableEq

/-- The main priority-queue loop of `dijkstra` (lines 53-70), with explicit
fuel counting loop iterations (each iteration pops exactly one entry). -/
def dloop (g : Graph) (en : Node) :
    Nat → List (Wt × Node) → NMap (Option Wt) → NMap (Option Node) →
    List Node → LoopRes
  | _, [], dist, par, _ => LoopRes.ok dist par
  | 0, _ :: _, _, _, _ => LoopRes.fuelOut
  | fuel + 1, p :: ps, dist, par, vis =>
    match popMin p ps with
    | ((cd, node), pq') =>
      if node ∈ vis then dloop g en fuel pq' dist par vis
      else if node = en then LoopRes.ok dist par
      else
        match g.find? node with
        | none => LoopRes.keyErr
        | some adj =>
          match relaxAll node cd (node :: vis) adj pq' dist par with
          | none => LoopRes.keyErr
          | some (pq2, dist2, par2) =>
            dloop g en fuel pq2 dist2 par2 (node :: vis)

/-- Outcome of the path-reconstruction loop. -/
inductive BOut
  | ok (acc : List Node)
  | keyErr
  | fuelOut
deriving DecidableEq

/-- The parent-chain reconstruction loop of `dijkstra` (lines 73-77): walk
parent pointers from the end node, appending each node, until a node with
no parent is reached.  Fuel bounds the chain length. -/
def buildLoop (par : NMap (Option Node)) :
    Nat → Option Node → List Node → BOut
  | _, none, acc => BOut.ok acc
  | 0, some _, _ => BOut.fuelOut
  | fuel + 1, some v, acc =>
    match par.find? v with
    | none => BOut.keyErr
    | some pv => buildLoop par fuel pv (acc ++ [v])

/-- The initial tentative-distance dict: every graph key mapped to infinity,
then the start node set to zero (lines 48-49). -/
def initDist (g : Graph) (s : Node) : NMap (Option Wt) :=
  NMap.insert (g.map (fun p => (p.1, (none : Option Wt)))) s (some 0)

/-- The initial parent dict: every graph key mapped to None (line 50). -/
def initPar (g : Graph) : NMap (Option Node) :=
  g.map (fun p => (p.1, (none : Option Node)))

/-- Count `1 + len(adjacency)` over all graph entries whose key is not yet
visited.  One unit pays for the pop that first visits the key and the rest
pay for the pushes its relaxation can make, so this bounds the number of
remaining loop iterations. -/
def degSum : Graph → List Node → Nat
  | [], _ => 0
  | (n, adj) :: rest, vis =>
    (if n ∈ vis then 0 else 1 + adj.length) + degSum rest vis

/-- Outcome of `dijkstra`: a returned pair, or a Python exception marker,
or fuel exhaustion (proved unreachable below). -/
inductive DOut
  | ok (d : Option Wt) (p : List Node)
  | keyErr
  | fuelOut
deriving DecidableEq

/-- Source translation of `GraphRouteFinder.dijkstra` (lines 42-82).
The result `ok none []` is the no-path sentinel (infinite distance, empty path); `ok (some d) p`
is a found path. -/
def dijkstra (g : Graph) (s e : Node) : DOut :=
  if (g.find? s).isNone ∨ (g.find? e).isNone then DOut.ok none []
  else
    match dloop g e (2 + degSum g []) [(0, s)] (initDist g s) (initPar g) [] with
    | LoopRes.keyErr => DOut.keyErr
    | LoopRes.fuelOut => DOut.fuelOut
    | LoopRes.ok dist par =>
      match buildLoop par (g.length + 1) (some e) [] with
      | BOut.keyErr => DOut.keyErr
      | BOut.fuelOut => DOut.fuelOut
      | BOut.ok acc =>
        match dist.find? e with
        | none => DOut.keyErr
        | some none => DOut.ok none []
        | some (some d) => DOut.ok (some d) acc.reverse

/-- Well-formedness of the embedding of a Python dict-of-dicts: keys are
unique at both levels, as they necessarily are for real dicts. -/
def WFB (g : Graph) : Bool :=
  g.keys.Nodup && g.all (fun p => p.2.keys.Nodup)

/-- Entry-level symmetry check: every stored edge is mirrored with the same
weight. -/
def SymmB (g : Graph) : Bool :=
  g.all (fun p => p.2.all (fun q => lookup2 g q.1 p.1 == some q.2))

/-- Entry-level positivity check on all stored weights. -/
def PosB (g : Graph) : Bool :=
  g.all (fun p => p.2.all (fun q => decide (0 < q.2)))

/-- Entry-level closedness: every neighbor mentioned in an adjacency dict is
itself a key of the graph.  Symmetric graphs are closed; graphs loaded from
an arbitrary JSON file need not be. -/
def ClosedB (g : Graph) : Bool :=
  g.all (fun p => p.2.all (fun q => (g.find? q.1).isSome))

/-- Propositional symmetry of the stored adjacency relation. -/
def Symm (g : Graph) : Prop :=
  ∀ x y w, lookup2 g x y = some w ↔ lookup2 g y x = some w

/-- A walk in the graph: a node sequence starting at `s` in which every
consecutive pair is a stored edge.  `Walk g s v p` states that `p` leads
from `s` to `v`. -/
inductive Walk (g : Graph) (s : Node) : Node → List Node → Prop
  | single : Walk g s s [s]
  | snoc {u v : Node} {p : List Node} (w : Wt) :
      Walk g s u p → lookup2 g u v = some w → Walk g s v (p ++ [v])

/-- Total weight of a node sequence, summing stored edge weights of
consecutive pairs (missing edges count zero; walks have no missing edges). -/
def walkW (g : Graph) : List Node → Wt
  | x :: y :: rest => (lookup2 g x y).getD 0 + walkW g (y :: rest)
  | _ => 0

/-- Reachability: some walk leads from `s` to `e`. -/
def Reach (g : Graph) (s e : Node) : Prop := ∃ p, Walk g s e p

/-- The tentative distance of a node as an extended rational: `⊤` both for
the stored float infinity and for an absent key. -/
def dval (dist : NMap (Option Wt)) (n : Node) : WithTop Wt :=
  match dist.find? n with
  | some (some d) => (d : WithTop Wt)
  | _ => ⊤

/-- All stored edge weights are strictly positive. -/
def PosP (g : Graph) : Prop := ∀ x y w, lookup2 g x y = some w → 0 < w

/-- Every neighbor mentioned in an adjacency dict is a key of the graph. -/
def ClosedP (g : Graph) : Prop :=
  ∀ x adj, g.find? x = some adj → ∀ q ∈ adj, (g.find? (Prod.fst q)).isSome = true

/-- Parent pointers respect the visit order: a stored parent `m` of `n` was
visited, and `n` was not yet visited at that moment, so `n` occurs nowhere
in the part of the visited list from `m` (most recent first) onwards.  This
makes every parent chain follow strictly older and older visits, hence
finite, which is why the reconstruction loop of `dijkstra` terminates. -/
def Jpar (par : NMap (Option Node)) (vis : List Node) : Prop :=
  ∀ n m, par.find? n = some (some m) →
    ∃ pre post, vis = pre ++ m :: post ∧ n ∉ (m :: post)

/-- Invariant of the priority-queue loop needed for termination of the
reconstruction loop and for the no-path sentinel, with no assumption on
the graph except that the start check of `dijkstra` passed. -/
structure TInv (g : Graph) (s : Node) (pq : List (Wt × Node))
    (dist : NMap (Option Wt)) (par : NMap (Option Node))
    (vis : List Node) : Prop where
  keysD : dist.keys = g.keys
  keysP : par.keys = g.keys
  visSub : ∀ n ∈ vis, n ∈ g.keys
  visNodup : vis.Nodup
  qKeys : ∀ q ∈ pq, (Prod.snd q) ∈ g.keys
  jpar : Jpar par vis
  reachPq : ∀ q ∈ pq, Reach g s (Prod.snd q)
  reachDist : ∀ n d, dist.find? n = some (some d) → Reach g s n

/-- Full Dijkstra invariant of the priority-queue loop, for symmetric
graphs with positive weights: visited tentative distances are final and
least, the frontier covers every finite unvisited distance, and parent
pointers decompose distances edge by edge. -/
structure DInv (g : Graph) (s en : Node) (pq : List (Wt × Node))
    (dist : NMap (Option Wt)) (par : NMap (Option Node))
    (vis : List Node) : Prop where
  keysD : dist.keys = g.keys
  keysP : par.keys = g.keys
  visSub : ∀ n ∈ vis, n ∈ g.keys
  visNodup : vis.Nodup
  jpar : Jpar par vis
  enVis : en ∉ vis
  sPq : s ∉ vis → (0, s) ∈ pq
  sDist : dist.find? s = some (some 0)
  startCase : s ∈ vis ∨ (∀ n, n ≠ s → dval dist n = ⊤)
  visFin : ∀ n ∈ vis, dval dist n ≠ ⊤
  visLeast : ∀ n ∈ vis, ∀ q, Walk g s n q →
    dval dist n ≤ (walkW g q : WithTop Wt)
  tentSound : ∀ n d, dist.find? n = some (some d) →
    ∃ p, Walk g s n p ∧ walkW g p = d
  frontier : ∀ u ∈ vis, ∀ y w, lookup2 g u y = some w → y ∉ vis →
    dval dist y ≤ dval dist u + (w : WithTop Wt)
  pqCover : ∀ y d, y ∉ vis → dist.find? y = some (some d) → (d, y) ∈ pq
  pqLower : ∀ q ∈ pq, dval dist (Prod.snd q) ≤ ((Prod.fst q : Wt) : WithTop Wt)
  parInv : ∀ n m, par.find? n = some (some m) → m ∈ vis ∧
    ∃ w dm dn, lookup2 g m n = some w ∧ dist.find? m = some (some dm) ∧
      dist.find? n = some (some dn) ∧ dn = dm + w
  parNoneS : ∀ n d, dist.find? n = some (some d) → n ≠ s →
    ∃ m, par.find? n = some (some m)

/-- What the priority-queue loop guarantees when it returns after visiting
the end node: the recorded distance of `en` is finite, below the weight of
every walk from `s` to `en`, and the parent structure reconstructs it. -/
def C1Pack (g : Graph) (s en : Node) (D : NMap (Option Wt))
    (P : NMap (Option Node)) : Prop :=
  ∃ V de,
    Jpar P V ∧ (∀ n ∈ V, n ∈ g.keys) ∧ V.Nodup ∧
    P.keys = g.keys ∧ D.keys = g.keys ∧
    D.find? s = some (some 0) ∧
    D.find? en = some (some de) ∧
    (∀ q, Walk g s en q → (de : WithTop Wt) ≤ (walkW g q : WithTop Wt)) ∧
    (∀ n m, P.find? n = some (some m) →
      ∃ w dm dn, lookup2 g m n = some w ∧ D.find? m = some (some dm) ∧
        D.find? n = some (some dn) ∧ dn = dm + w) ∧
    (∀ n d, D.find? n = some (some d) → n ≠ s →
      ∃ m, P.find? n = some (some m))

namespace NMap

@[simp]
theorem keys_nil {α : Type} : keys ([] : NMap α) = [] := rfl

@[simp]
theorem keys_cons {α : Type} (hd : Node × α) (tl : NMap α) :
    keys (hd :: tl) = hd.1 :: keys tl := rfl

theorem find?_insert_self {α : Type} (m : NMap α) (k : Node) (v : α) :
    (m.insert k v).find? k = some v := by
  induction m with
  | nil => simp [insert, find?]
  | cons hd tl ih =>
    by_cases h : k = hd.1
    · simp [insert, h, find?]
    · simp [insert, h, find?, ih]

theorem find?_insert_ne {α : Type} (m : NMap α) {k k' : Node} (v : α)
    (h : k' ≠ k) : (m.insert k v).find? k' = m.find? k' := by
  induction m with
  | nil => simp [insert, find?, h]
  | cons hd tl ih =>
    by_cases hk : k = hd.1
    · subst hk
      simp [insert, find?, h]
    · by_cases hk' : k' = hd.1
      · simp [insert, hk, find?, hk']
      · simp [insert, hk, find?, hk', ih]

theorem mem_keys_iff {α : Type} (m : NMap α) (k : Node) :
    k ∈ m.keys ↔ (m.find? k).isSome := by
  induction m with
  | nil => simp [keys, find?]
  | cons hd tl ih =>
    by_cases h : k = hd.1
    · simp [keys, find?, h]
    · simp [keys, find?, h, Ne.symm h] at ih ⊢
      exact ih

theorem keys_insert_of_mem {α : Type} {m : NMap α} {k : Node} (v : α)
    (h : k ∈ m.keys) : (m.insert k v).keys = m.keys := by
  induction m with
  | nil => simp at h
  | cons hd tl ih =>
    by_cases hk : k = hd.1
    · simp [insert, hk]
    · have h' : k ∈ keys tl := by
        rcases List.mem_cons.mp (by simpa using h) with h1 | h1
        · exact absurd h1 hk
        · exact h1
      simp [insert, hk, ih h']

theorem keys_insert_of_not_mem {α : Type} {m : NMap α} {k : Node} (v : α)
    (h : k ∉ m.keys) : (m.insert k v).keys = m.keys ++ [k] := by
  induction m with
  | nil => simp [insert]
  | cons hd tl ih =>
    simp at h
    push_neg at h
    simp [insert, h.1, ih h.2]

theorem find?_erase_ne {α : Type} (m : NMap α) {k k' : Node}
    (h : k' ≠ k) : (m.erase k).find? k' = m.find? k' := by
  induction m with
  | nil => simp [erase]
  | cons hd tl ih =>
    by_cases hk : k = hd.1
    · subst hk
      simp [erase, find?, h]
    · by_cases hk' : k' = hd.1
      · simp [erase, hk, find?, hk']
      · simp [erase, hk, find?, hk', ih]

theorem find?_erase_self {α : Type} {m : NMap α} {k : Node}
    (hnd : m.keys.Nodup) : (m.erase k).find? k = none := by
  induction m with
  | nil => simp [erase, find?]
  | cons hd tl ih =>
    rw [keys_cons, List.nodup_cons] at hnd
    by_cases hk : k = hd.1
    · rw [hk]
      have hmem : hd.1 ∉ keys tl := hnd.1
      rw [mem_keys_iff] at hmem
      simpa [erase] using Option.not_isSome_iff_eq_none.mp hmem
    · simp [erase, hk, find?, ih hnd.2]

theorem find?_some_mem {α : Type} {m : NMap α} {k : Node} {v : α}
    (h : m.find? k = some v) : (k, v) ∈ m := by
  induction m with
  | nil => simp [find?] at h
  | cons hd tl ih =>
    by_cases hk : k = hd.1
    · simp [find?, hk] at h
      subst hk h
      simp
    · simp [find?, hk] at h
      simp [ih h]

theorem find?_eq_of_mem {α : Type} {m : NMap α} {k : Node} {v : α}
    (hnd : m.keys.Nodup) (h : (k, v) ∈ m) : m.find? k = some v := by
  induction m with
  | nil => simp at h
  | cons hd tl ih =>
    rw [keys_cons, List.nodup_cons] at hnd
    rcases List.mem_cons.mp h with h1 | h1
    · rw [← h1]
      simp [find?]
    · have hk : k ≠ hd.1 := fun hk =>
        hnd.1 (hk ▸ List.mem_map.mpr ⟨(k, v), h1, rfl⟩)
      simp [find?, hk, ih hnd.2 h1]

theorem keys_map_fst {α β : Type} (g : NMap α) (f : Node × α → β) :
    keys (g.map (fun p => (p.1, f p))) = keys g := by
  induction g with
  | nil => rfl
  | cons hd tl ih => simp [keys, ih]

theorem mem_insert {α : Type} {m : NMap α} {k : Node} {v : α}
    {p : Node × α} (h : p ∈ m.insert k v) : p = (k, v) ∨ p ∈ m := by
  induction m with
  | nil =>
    simp [insert] at h
    exact Or.inl (by rw [h])
  | cons hd tl ih =>
    by_cases hk : k = hd.1
    · simp only [insert, if_pos hk] at h
      rcases List.mem_cons.mp h with h1 | h1
      · exact Or.inl h1
      · exact Or.inr (List.mem_cons_of_mem _ h1)
    · simp only [insert, if_neg hk] at h
      rcases List.mem_cons.mp h with h1 | h1
      · exact Or.inr (h1 ▸ List.mem_cons_self _ _)
      · rcases ih h1 with h2 | h2
        · exact Or.inl h2
        · exact Or.inr (List.mem_cons_of_mem _ h2)

theorem keys_erase_sublist {α : Type} (m : NMap α) (k : Node) :
    (m.erase k).keys.Sublist m.keys := by
  induction m with
  | nil => simp [erase]
  | cons hd tl ih =>
    by_cases hk : k = hd.1
    · simp only [erase, if_pos hk, keys_cons]
      exact List.sublist_cons_self _ _
    · simp only [erase, if_neg hk, keys_cons]
      exact ih.cons₂ hd.1

theorem find?_map_const {α β : Type} (g : NMap α) (c : β) (k : Node) :
    find? (g.map (fun p => (p.1, c))) k =
      if (g.find? k).isSome then some c else none := by
  induction g with
  | nil => simp [find?]
  | cons hd tl ih =>
    by_cases hk : k = hd.1
    · simp [find?, hk]
    · simp [find?, hk, ih]

end NMap

/-- Propositional form of `WFB`: unique keys at both dict levels. -/
def WFP (g : Graph) : Prop :=
  g.keys.Nodup ∧ ∀ p ∈ g, (p.2 : NMap Wt).keys.Nodup

theorem WFP_of_WFB {g : Graph} (h : WFB g = true) : WFP g := by
  unfold WFB at h
  rw [Bool.and_eq_true, List.all_eq_true] at h
  exact ⟨by simpa using h.1, fun p hp => by simpa using h.2 p hp⟩

/-- Unfold one guarded node-creation step of `add_edge`. -/
theorem find?_create_self (g : Graph) (a : Node) :
    ((if (g.find? a).isSome then g else g.insert a []).find? a) =
      some ((g.find? a).getD []) := by
  cases h : g.find? a <;> simp [h, NMap.find?_insert_self]

theorem find?_create_ne (g : Graph) (a : Node) {x : Node} (hx : x ≠ a) :
    ((if (g.find? a).isSome then g else g.insert a []).find? x) =
      g.find? x := by
  cases h : g.find? a <;> simp [h, NMap.find?_insert_ne _ _ hx]

theorem lookup2_eq_getD (g : Graph) (x y : Node) :
    lookup2 g x y = ((g.find? x).getD []).find? y := by
  cases h : g.find? x <;> simp [lookup2, h, NMap.find?]

/-- Effect of one weight assignment on every stored edge. -/
theorem lookup2_setW (m : Graph) (u v : Node) (w : Wt) (x y : Node) :
    lookup2 (setW m u v w) x y =
      if x = u ∧ y = v then some w else lookup2 m x y := by
  unfold setW
  by_cases hx : x = u
  · rw [lookup2_eq_getD, hx, NMap.find?_insert_self, Option.getD_some]
    by_cases hy : y = v
    · rw [hy, NMap.find?_insert_self]
      simp [hx, hy]
    · rw [NMap.find?_insert_ne _ _ hy, ← lookup2_eq_getD]
      simp [hy]
  · rw [lookup2_eq_getD, NMap.find?_insert_ne _ _ hx, ← lookup2_eq_getD]
    simp [hx]

/-- A node-creation step of `add_edge` stores no edge, so edge lookups are
unchanged by it. -/
theorem lookup2_create (m : Graph) (c : Node) (x y : Node) :
    lookup2 (if (m.find? c).isSome then m else m.insert c []) x y =
      lookup2 m x y := by
  by_cases hc : (m.find? c).isSome = true
  · rw [if_pos hc]
  · rw [if_neg hc]
    by_cases hx : x = c
    · rw [lookup2_eq_getD, hx, NMap.find?_insert_self, Option.getD_some]
      rw [lookup2_eq_getD, Option.not_isSome_iff_eq_none.mp hc]
      rfl
    · rw [lookup2_eq_getD, NMap.find?_insert_ne _ _ hx, ← lookup2_eq_getD]

/-- Effect of `add_edge` on every stored edge: it sets the weight in both
directions and changes nothing else. -/
theorem lookup2_addEdge (g : Graph) (a b : Node) (w : Wt) (x y : Node) :
    lookup2 (addEdge g a b w) x y =
      if (x = a ∧ y = b) ∨ (x = b ∧ y = a) then some w
      else lookup2 g x y := by
  unfold addEdge
  rw [lookup2_setW, lookup2_setW, lookup2_create, lookup2_create]
  by_cases h1 : x = b ∧ y = a <;> by_cases h2 : x = a ∧ y = b <;>
    simp [h1, h2]

theorem lookup2_none_of_find? {g : Graph} {x : Node} (y : Node)
    (h : g.find? x = none) : lookup2 g x y = none := by
  rw [lookup2_eq_getD, h]
  rfl

theorem lookup2_some_of_find? {g : Graph} {x : Node} {adj : NMap Wt}
    (y : Node) (h : g.find? x = some adj) : lookup2 g x y = adj.find? y := by
  rw [lookup2_eq_getD, h]
  rfl

theorem delHalf_eq_of_none {m : Graph} {u : Node} (v : Node)
    (h : m.find? u = none) : delHalf m u v = m := by
  simp [delHalf, h]

theorem delHalf_eq_of_miss {m : Graph} {u : Node} {adj : NMap Wt} (v : Node)
    (h : m.find? u = some adj) (hv : ¬(adj.find? v).isSome = true) :
    delHalf m u v = m := by
  simp [delHalf, h, hv]

theorem delHalf_eq_of_hit {m : Graph} {u : Node} {adj : NMap Wt} (v : Node)
    (h : m.find? u = some adj) (hv : (adj.find? v).isSome = true) :
    delHalf m u v = m.insert u (adj.erase v) := by
  simp [delHalf, h, hv]

theorem find?_delHalf_ne (m : Graph) (u v : Node) {x : Node} (hx : x ≠ u) :
    (delHalf m u v).find? x = m.find? x := by
  cases h : m.find? u with
  | none => rw [delHalf_eq_of_none v h]
  | some adj =>
    by_cases hv : (adj.find? v).isSome = true
    · rw [delHalf_eq_of_hit v h hv, NMap.find?_insert_ne _ _ hx]
    · rw [delHalf_eq_of_miss v h hv]

/-- Effect of one guarded deletion on every stored edge. -/
theorem lookup2_delHalf (m : Graph) (u v : Node)
    (hnd : ∀ adj, m.find? u = some adj → adj.keys.Nodup) (x y : Node) :
    lookup2 (delHalf m u v) x y =
      if x = u ∧ y = v then none else lookup2 m x y := by
  by_cases hx : x = u
  · rw [hx]
    cases h : m.find? u with
    | none =>
      rw [delHalf_eq_of_none v h]
      have h0 : ∀ z, lookup2 m u z = none :=
        fun z => lookup2_none_of_find? z h
      by_cases hy : y = v <;> simp [hy, h0]
    | some adj =>
      by_cases hv : (adj.find? v).isSome = true
      · rw [delHalf_eq_of_hit v h hv, lookup2_eq_getD,
          NMap.find?_insert_self, Option.getD_some]
        by_cases hy : y = v
        · rw [hy, NMap.find?_erase_self (hnd adj h)]
          simp
        · rw [NMap.find?_erase_ne _ hy, ← lookup2_some_of_find? y h]
          simp [hy]
      · rw [delHalf_eq_of_miss v h hv]
        by_cases hy : y = v
        · have h0 : lookup2 m u v = none := by
            rw [lookup2_some_of_find? v h]
            exact Option.not_isSome_iff_eq_none.mp hv
          rw [hy]
          simp [h0]
        · simp [hy]
  · rw [lookup2_eq_getD, find?_delHalf_ne m u v hx, ← lookup2_eq_getD]
    simp [hx]

theorem keys_delHalf (m : Graph) (u v : Node) :
    (delHalf m u v).keys = m.keys := by
  cases h : m.find? u with
  | none => rw [delHalf_eq_of_none v h]
  | some adj =>
    by_cases hv : (adj.find? v).isSome = true
    · rw [delHalf_eq_of_hit v h hv]
      exact NMap.keys_insert_of_mem _
        ((NMap.mem_keys_iff _ _).mpr (by simp [h]))
    · rw [delHalf_eq_of_miss v h hv]

theorem WFP_delHalf {m : Graph} (u v : Node) (hm : WFP m) :
    WFP (delHalf m u v) := by
  cases h : m.find? u with
  | none =>
    rw [delHalf_eq_of_none v h]
    exact hm
  | some adj =>
    by_cases hv : (adj.find? v).isSome = true
    · rw [delHalf_eq_of_hit v h hv]
      refine ⟨?_, ?_⟩
      · rw [NMap.keys_insert_of_mem _
          ((NMap.mem_keys_iff _ _).mpr (by simp [h]))]
        exact hm.1
      · intro p hp
        rcases NMap.mem_insert hp with h1 | h1
        · rw [h1]
          exact List.Nodup.sublist (NMap.keys_erase_sublist adj v)
            (hm.2 (u, adj) (NMap.find?_some_mem h))
        · exact hm.2 p h1
    · rw [delHalf_eq_of_miss v h hv]
      exact hm

/-- Effect of `remove_edge` on every stored edge: it deletes the edge in
both directions and changes nothing else. -/
theorem lookup2_removeEdge (g : Graph) (a b : Node) (hWF : WFP g)
    (x y : Node) :
    lookup2 (removeEdge g a b) x y =
      if (x = a ∧ y = b) ∨ (x = b ∧ y = a) then none
      else lookup2 g x y := by
  unfold removeEdge
  have h1 : ∀ adj, g.find? a = some adj → adj.keys.Nodup :=
    fun adj h => hWF.2 (a, adj) (NMap.find?_some_mem h)
  have h2 : ∀ adj, (delHalf g a b).find? b = some adj → adj.keys.Nodup :=
    fun adj h => (WFP_delHalf a b hWF).2 (b, adj) (NMap.find?_some_mem h)
  rw [lookup2_delHalf _ _ _ h2, lookup2_delHalf _ _ _ h1]
  by_cases c1 : x = b ∧ y = a <;> by_cases c2 : x = a ∧ y = b <;>
    simp [c1, c2]

theorem keys_removeEdge (g : Graph) (a b : Node) :
    (removeEdge g a b).keys = g.keys := by
  unfold removeEdge
  rw [keys_delHalf, keys_delHalf]

theorem delHalf_of_absent {m : Graph} {u v : Node}
    (h : lookup2 m u v = none) : delHalf m u v = m := by
  unfold delHalf
  cases hf : m.find? u with
  | none => rfl
  | some adj =>
    have h0 : adj.find? v = none := by
      rw [lookup2_some_of_find? v hf] at h
      exact h
    simp [h0]

/-- Removing an absent edge is literally a no-op on the graph value. -/
theorem removeEdge_of_absent {g : Graph} {a b : Node}
    (hab : lookup2 g a b = none) (hba : lookup2 g b a = none) :
    removeEdge g a b = g := by
  unfold removeEdge
  rw [delHalf_of_absent hab, delHalf_of_absent hba]

/-- The executable symmetry check implies propositional symmetry. -/
theorem Symm_of_SymmB {g : Graph} (h : SymmB g = true) : Symm g := by
  have key : ∀ x y w, lookup2 g x y = some w → lookup2 g y x = some w := by
    intro x y w hxy
    cases hf : g.find? x with
    | none => rw [lookup2_none_of_find? y hf] at hxy; exact absurd hxy (by simp)
    | some adj =>
      rw [lookup2_some_of_find? y hf] at hxy
      have hgx : (x, adj) ∈ g := NMap.find?_some_mem hf
      have hyw : (y, w) ∈ adj := NMap.find?_some_mem hxy
      unfold SymmB at h
      rw [List.all_eq_true] at h
      have := h (x, adj) hgx
      rw [List.all_eq_true] at this
      have := this (y, w) hyw
      simpa using this
  exact fun x y w => ⟨key x y w, key y x w⟩

theorem lookup2_isSome_fst {g : Graph} {x y : Node} {w : Wt}
    (h : lookup2 g x y = some w) : (g.find? x).isSome = true := by
  cases hf : g.find? x with
  | none => rw [lookup2_none_of_find? y hf] at h; exact absurd h (by simp)
  | some adj => simp

/-- Evaluation of `dijkstra(X, X)` for a graph key `X`: the first pop is
`X` itself, the end test fires at once, and reconstruction returns the
one-node path. -/
theorem dijkstra_self (g : Graph) (X : Node)
    (hX : (g.find? X).isSome = true) :
    dijkstra g X X = DOut.ok (some 0) [X] := by
  obtain ⟨adj, hadj⟩ := Option.isSome_iff_exists.mp hX
  unfold dijkstra
  rw [if_neg (by simp [hadj])]
  have hfuel : 2 + degSum g [] = (degSum g [] + 1) + 1 := by omega
  rw [hfuel]
  have hpop : dloop g X ((degSum g [] + 1) + 1) [(0, X)] (initDist g X)
      (initPar g) [] = LoopRes.ok (initDist g X) (initPar g) := by
    simp [dloop, popMin, findMin, removeFirst]
  rw [hpop]
  have hpar : (initPar g).find? X = some none := by
    simp [initPar, NMap.find?_map_const, hadj]
  have hbuild : buildLoop (initPar g) (g.length + 1) (some X) [] =
      BOut.ok [X] := by
    simp [buildLoop, hpar]
  have hdist : (initDist g X).find? X = some (some 0) := by
    simp [initDist, NMap.find?_insert_self]
  simp [hbuild, hdist]

theorem pqLeB_true_le {a b : Wt × Node} (h : pqLeB a b = true) :
    a.1 ≤ b.1 := by
  simp [pqLeB] at h
  rcases h with h | h
  · exact le_of_lt h
  · exact le_of_eq h.1

theorem pqLeB_false_le {a b : Wt × Node} (h : pqLeB a b = false) :
    b.1 ≤ a.1 := by
  simp [pqLeB] at h
  exact h.1

theorem pqMin_cases (a b : Wt × Node) : pqMin a b = a ∨ pqMin a b = b := by
  by_cases h : pqLeB a b = true <;> simp [pqMin, h]

theorem pqMin_fst_le_left (a b : Wt × Node) : (pqMin a b).1 ≤ a.1 := by
  by_cases h : pqLeB a b = true
  · simp [pqMin, h]
  · simp only [pqMin, h, if_false]
    exact pqLeB_false_le (Bool.not_eq_true _ ▸ eq_false_of_ne_true h)

theorem pqMin_fst_le_right (a b : Wt × Node) : (pqMin a b).1 ≤ b.1 := by
  by_cases h : pqLeB a b = true
  · simp only [pqMin, h, if_true]
    exact pqLeB_true_le h
  · simp [pqMin, h]

theorem findMin_mem (x : Wt × Node) (xs : List (Wt × Node)) :
    findMin x xs ∈ x :: xs := by
  induction xs generalizing x with
  | nil => simp [findMin]
  | cons y ys ih =>
    have h0 : findMin x (y :: ys) = findMin (pqMin x y) ys := rfl
    rw [h0]
    rcases pqMin_cases x y with hc | hc
    · rcases List.mem_cons.mp (ih (pqMin x y)) with h1 | h1
      · rw [h1, hc]
        simp
      · simp [h1]
    · rcases List.mem_cons.mp (ih (pqMin x y)) with h1 | h1
      · rw [h1, hc]
        simp
      · simp [h1]

theorem findMin_fst_le (x : Wt × Node) (xs : List (Wt × Node)) :
    ∀ z ∈ x :: xs, (findMin x xs).1 ≤ z.1 := by
  induction xs generalizing x with
  | nil =>
    intro z hz
    simp at hz
    simp [findMin, hz]
  | cons y ys ih =>
    intro z hz
    have h0 : findMin x (y :: ys) = findMin (pqMin x y) ys := rfl
    rw [h0]
    rcases List.mem_cons.mp hz with h | h
    · calc (findMin (pqMin x y) ys).1 ≤ (pqMin x y).1 :=
            ih (pqMin x y) _ (List.mem_cons_self _ _)
        _ ≤ z.1 := h ▸ pqMin_fst_le_left x y
    · rcases List.mem_cons.mp h with h1 | h1
      · calc (findMin (pqMin x y) ys).1 ≤ (pqMin x y).1 :=
              ih (pqMin x y) _ (List.mem_cons_self _ _)
          _ ≤ z.1 := h1 ▸ pqMin_fst_le_right x y
      · exact ih (pqMin x y) z (List.mem_cons_of_mem _ h1)

theorem removeFirst_length {l : List (Wt × Node)} {m : Wt × Node}
    (h : m ∈ l) : (removeFirst l m).length + 1 = l.length := by
  induction l with
  | nil => simp at h
  | cons y ys ih =>
    by_cases hy : y = m
    · simp [removeFirst, hy]
    · have h1 : m ∈ ys := by
        rcases List.mem_cons.mp h with h2 | h2
        · exact absurd h2.symm hy
        · exact h2
      simp [removeFirst, hy, ih h1]

theorem removeFirst_subset {l : List (Wt × Node)} {m z : Wt × Node}
    (h : z ∈ removeFirst l m) : z ∈ l := by
  induction l with
  | nil => simp [removeFirst] at h
  | cons y ys ih =>
    by_cases hy : y = m
    · simp only [removeFirst, if_pos hy] at h
      exact List.mem_cons_of_mem _ h
    · simp only [removeFirst, if_neg hy] at h
      rcases List.mem_cons.mp h with h1 | h1
      · rw [h1]
        simp
      · exact List.mem_cons_of_mem _ (ih h1)

theorem mem_removeFirst_of_ne {l : List (Wt × Node)} {m z : Wt × Node}
    (hz : z ∈ l) (hne : z ≠ m) : z ∈ removeFirst l m := by
  induction l with
  | nil => simp at hz
  | cons y ys ih =>
    by_cases hy : y = m
    · simp only [removeFirst, if_pos hy]
      rcases List.mem_cons.mp hz with h1 | h1
      · exact absurd (h1.trans hy) hne
      · exact h1
    · simp only [removeFirst, if_neg hy]
      rcases List.mem_cons.mp hz with h1 | h1
      · rw [h1]
        simp
      · exact List.mem_cons_of_mem _ (ih h1)

/-- Destructuring of one pop: the popped entry is in the heap, the rest is
the heap minus one occurrence of it, and its distance is minimal. -/
theorem popMin_spec {p : Wt × Node} {ps : List (Wt × Node)}
    {cd : Wt} {node : Node} {pq' : List (Wt × Node)}
    (h : popMin p ps = ((cd, node), pq')) :
    (cd, node) ∈ p :: ps ∧
    pq' = removeFirst (p :: ps) (cd, node) ∧
    (∀ z ∈ p :: ps, cd ≤ z.1) := by
  have h1 : findMin p ps = (cd, node) := congrArg Prod.fst h
  have h2 : pq' = removeFirst (p :: ps) (findMin p ps) :=
    (congrArg Prod.snd h).symm
  refine ⟨h1 ▸ findMin_mem p ps, h1 ▸ h2, ?_⟩
  intro z hz
  have := findMin_fst_le p ps z hz
  rw [h1] at this
  exact this

/-- The relaxation pass pushes at most one heap entry per neighbor. -/
theorem relaxAll_length {cur : Node} {cd : Wt} {vis : List Node} :
    ∀ {adj : List (Node × Wt)} {pq : List (Wt × Node)}
      {dist : NMap (Option Wt)} {par : NMap (Option Node)}
      {pq2 dist2 par2},
      relaxAll cur cd vis adj pq dist par = some (pq2, dist2, par2) →
      pq2.length ≤ pq.length + adj.length := by
  intro adj
  induction adj with
  | nil =>
    intro pq dist par pq2 dist2 par2 h
    simp [relaxAll] at h
    rw [← h.1]
    simp
  | cons q rest ih =>
    intro pq dist par pq2 dist2 par2 h
    rcases q with ⟨nbr, w⟩
    simp only [List.length_cons]
    by_cases hv : nbr ∈ vis
    · rw [relaxAll, if_pos hv] at h
      have := ih h
      omega
    · rw [relaxAll, if_neg hv] at h
      cases hf : dist.find? nbr with
      | none =>
        simp only [hf] at h
        simp at h
      | some dOld =>
        simp only [hf] at h
        by_cases hlt : ltO (cd + w) dOld = true
        · rw [if_pos hlt] at h
          have := ih h
          simp only [List.length_append, List.length_cons,
            List.length_nil] at this
          omega
        · rw [if_neg hlt] at h
          have := ih h
          omega

theorem degSum_mono {g : Graph} {vis vis' : List Node}
    (h : ∀ n ∈ vis, n ∈ vis') : degSum g vis' ≤ degSum g vis := by
  induction g with
  | nil => simp [degSum]
  | cons e rest ih =>
    rcases e with ⟨n, adj⟩
    by_cases hn : n ∈ vis
    · simp [degSum, hn, h n hn, ih]
    · simp only [degSum, if_neg hn]
      by_cases hn' : n ∈ vis'
      · simp only [if_pos hn']
        omega
      · simp only [if_neg hn']
        omega

theorem degSum_visit {g : Graph} {node : Node} {adj : NMap Wt}
    {vis : List Node} (hfind : g.find? node = some adj)
    (hvis : node ∉ vis) :
    degSum g (node :: vis) + 1 + adj.length ≤ degSum g vis := by
  induction g with
  | nil => simp [NMap.find?] at hfind
  | cons e rest ih =>
    rcases e with ⟨k, a⟩
    by_cases hk : node = k
    · have ha : a = adj := by
        rw [NMap.find?, if_pos hk] at hfind
        exact (Option.some.injEq _ _).mp hfind
      have h1 : k ∈ node :: vis := by rw [← hk]; simp
      have h2 : k ∉ vis := by rw [← hk]; exact hvis
      have h3 : degSum rest (node :: vis) ≤ degSum rest vis :=
        degSum_mono (fun n hn => List.mem_cons_of_mem _ hn)
      simp only [degSum, if_pos h1, if_neg h2, ha]
      omega
    · have hf : NMap.find? rest node = some adj := by
        rw [NMap.find?, if_neg hk] at hfind
        exact hfind
      have hmem : (k ∈ node :: vis) ↔ (k ∈ vis) := by
        constructor
        · intro h
          rcases List.mem_cons.mp h with h1 | h1
          · exact absurd h1.symm hk
          · exact h1
        · exact fun h => List.mem_cons_of_mem _ h
      by_cases hkv : k ∈ vis
      · simp only [degSum, if_pos (hmem.mpr hkv), if_pos hkv]
        have := ih hf
        omega
      · simp only [degSum, if_neg (fun h => hkv (hmem.mp h)), if_neg hkv]
        have := ih hf
        omega

/-- The priority-queue loop never exhausts its fuel when the fuel covers
the current heap plus one pop and all possible pushes for each unvisited
node: pops of visited nodes shrink the heap, and each expansion spends one
unvisited node forever while pushing at most its degree. -/
theorem dloop_ne_fuelOut (g : Graph) (en : Node) :
    ∀ fuel pq dist par vis, pq.length + degSum g vis ≤ fuel →
      dloop g en fuel pq dist par vis ≠ LoopRes.fuelOut := by
  intro fuel
  induction fuel with
  | zero =>
    intro pq dist par vis hle
    cases pq with
    | nil => simp [dloop]
    | cons p ps => simp at hle
  | succ f ih =>
    intro pq dist par vis hle
    cases pq with
    | nil => simp [dloop]
    | cons p ps =>
      rcases hP : popMin p ps with ⟨⟨cd, node⟩, pq'⟩
      obtain ⟨hmem, hrest, hmin⟩ := popMin_spec hP
      have hlen : pq'.length + 1 = ps.length + 1 := by
        rw [hrest]
        exact removeFirst_length hmem
      rw [dloop]
      simp only [hP]
      by_cases hv : node ∈ vis
      · rw [if_pos hv]
        apply ih
        simp at hle hlen
        omega
      · rw [if_neg hv]
        by_cases he : node = en
        · rw [if_pos he]
          simp
        · rw [if_neg he]
          cases hf : NMap.find? g node with
          | none =>
            simp only [hf]
            simp
          | some adj =>
            simp only [hf]
            cases hr : relaxAll node cd (node :: vis) adj pq' dist par with
            | none =>
              simp only [hr]
              simp
            | some res =>
              rcases res with ⟨pq2, dist2, par2⟩
              simp only [hr]
              have h1 : pq2.length ≤ pq'.length + adj.length :=
                relaxAll_length hr
              have h2 : degSum g (node :: vis) + 1 + adj.length ≤
                  degSum g vis := degSum_visit hf hv
              apply ih
              simp at hle hlen
              omega

/-- The reconstruction loop ends after finitely many steps: every stored
parent was visited strictly earlier than its child, so the chain of parent
lookups descends along ever shorter suffixes of the visited list.  The
returned accumulator appends the parent chain of `n`, which ends at a node
whose parent is None. -/
theorem buildLoop_ok {par : NMap (Option Node)} {V : List Node}
    (hJ : Jpar par V)
    (hkeys : ∀ n ∈ V, (NMap.find? par n).isSome = true) :
    ∀ fuel sfx n acc, sfx <:+ V →
      (∀ m, NMap.find? par n = some (some m) → m ∈ sfx) →
      sfx.length < fuel →
      (NMap.find? par n).isSome = true →
      ∃ q, buildLoop par fuel (some n) acc = BOut.ok (acc ++ q) ∧
        q.head? = some n ∧
        List.Chain' (fun x y => NMap.find? par x = some (some y)) q ∧
        (∃ z, q.getLast? = some z ∧ NMap.find? par z = some none) := by
  intro fuel
  induction fuel with
  | zero =>
    intro sfx n acc _ _ hlt _
    omega
  | succ f ih =>
    intro sfx n acc hsfx hn hlt hsome
    obtain ⟨pn, hpn⟩ := Option.isSome_iff_exists.mp hsome
    cases pn with
    | none =>
      refine ⟨[n], ?_, rfl, List.chain'_singleton n, n, rfl, hpn⟩
      rw [buildLoop, hpn]
      cases f with
      | zero => rfl
      | succ f2 => rfl
    | some m =>
      have hm : m ∈ sfx := hn m hpn
      obtain ⟨t, r, hts⟩ := List.append_of_mem hm
      have hmr : (m :: r) <:+ V :=
        List.IsSuffix.trans (hts ▸ List.suffix_append t (m :: r)) hsfx
      have hr : r <:+ V :=
        List.IsSuffix.trans (List.suffix_cons m r) hmr
      have hparents : ∀ m2, NMap.find? par m = some (some m2) → m2 ∈ r := by
        intro m2 hm2
        obtain ⟨pre2, post2, hV2, hnot2⟩ := hJ m m2 hm2
        have hsfx2 : (m2 :: post2) <:+ V := hV2 ▸ List.suffix_append _ _
        rcases List.suffix_or_suffix_of_suffix hmr hsfx2 with hc | hc
        · exact absurd (hc.subset (List.mem_cons_self m r)) hnot2
        · rcases List.suffix_cons_iff.mp hc with hc1 | hc1
          · exfalso
            have heq : m2 = m := by
              have := congrArg List.head? hc1
              simpa using this
            exact (heq ▸ hnot2) (List.mem_cons_self _ _)
          · exact hc1.subset (List.mem_cons_self m2 post2)
      have hrlen : r.length < sfx.length := by
        rw [hts]
        simp
        omega
      have hmsome : (NMap.find? par m).isSome = true :=
        hkeys m (hmr.subset (List.mem_cons_self m r))
      obtain ⟨q', hq1, hq2, hq3, z, hq4, hq5⟩ :=
        ih r m (acc ++ [n]) hr hparents (by omega) hmsome
      refine ⟨n :: q', ?_, rfl, ?_, z, ?_, hq5⟩
      · rw [buildLoop]
        simp only [hpn]
        rw [hq1, List.append_cons acc n q']
      · rw [List.chain'_cons']
        refine ⟨?_, hq3⟩
        intro y hy
        rw [hq2] at hy
        simp at hy
        subst hy
        exact hpn
      · obtain ⟨q2, hq2eq⟩ : ∃ q2, q' = m :: q2 := by
          cases q' with
          | nil => simp at hq2
          | cons a l =>
            simp at hq2
            exact ⟨l, by rw [hq2]⟩
        rw [hq2eq]
        rw [hq2eq] at hq4
        rw [List.getLast?_cons_cons]
        exact hq4

/-- Basic bookkeeping facts about one relaxation pass, with no assumption
on the graph: key sets of the distance and parent dicts are unchanged, the
heap only grows, every new heap entry comes from an adjacency entry whose
distance lookup succeeded, every new parent points to the current node and
belongs to an unvisited key, and every new finite distance belongs to an
adjacency entry. -/
theorem relaxAll_basic {cur : Node} {cd : Wt} {vis : List Node} :
    ∀ {adj : List (Node × Wt)} {pq : List (Wt × Node)}
      {dist : NMap (Option Wt)} {par : NMap (Option Node)}
      {pq2 : List (Wt × Node)} {dist2 : NMap (Option Wt)}
      {par2 : NMap (Option Node)},
      (∀ n : Node, n ∈ NMap.keys dist → n ∈ NMap.keys par) →
      relaxAll cur cd vis adj pq dist par = some (pq2, dist2, par2) →
      NMap.keys dist2 = NMap.keys dist ∧
      NMap.keys par2 = NMap.keys par ∧
      (∀ z ∈ pq, z ∈ pq2) ∧
      (∀ z ∈ pq2, z ∈ pq ∨
        ((∃ w2, ((Prod.snd z), w2) ∈ adj) ∧ (Prod.snd z) ∈ NMap.keys dist)) ∧
      (∀ n m, NMap.find? par2 n = some (some m) →
        NMap.find? par n = some (some m) ∨ (m = cur ∧ n ∉ vis)) ∧
      (∀ n d, NMap.find? dist2 n = some (some d) →
        NMap.find? dist n = some (some d) ∨ ∃ w2, (n, w2) ∈ adj) := by
  intro adj
  induction adj with
  | nil =>
    intro pq dist par pq2 dist2 par2 hkk h
    simp [relaxAll] at h
    obtain ⟨h1, h2, h3⟩ := h
    subst h1 h2 h3
    exact ⟨rfl, rfl, fun z hz => hz, fun z hz => Or.inl hz,
      fun n m hm => Or.inl hm, fun n d hd => Or.inl hd⟩
  | cons q rest ih =>
    intro pq dist par pq2 dist2 par2 hkk h
    rcases q with ⟨nbr, w⟩
    by_cases hv : nbr ∈ vis
    · rw [relaxAll, if_pos hv] at h
      obtain ⟨k1, k2, k3, k4, k5, k6⟩ := ih hkk h
      refine ⟨k1, k2, k3, ?_, k5, ?_⟩
      · intro z hz
        rcases k4 z hz with h1 | h1
        · exact Or.inl h1
        · exact Or.inr ⟨⟨h1.1.choose, List.mem_cons_of_mem _ h1.1.choose_spec⟩,
            h1.2⟩
      · intro n d hd
        rcases k6 n d hd with h1 | h1
        · exact Or.inl h1
        · exact Or.inr ⟨h1.choose, List.mem_cons_of_mem _ h1.choose_spec⟩
    · rw [relaxAll, if_neg hv] at h
      cases hf : NMap.find? dist nbr with
      | none =>
        simp only [hf] at h
        simp at h
      | some dOld =>
        simp only [hf] at h
        have hnbrD : nbr ∈ NMap.keys dist :=
          (NMap.mem_keys_iff _ _).mpr (by simp [hf])
        by_cases hlt : ltO (cd + w) dOld = true
        · rw [if_pos hlt] at h
          have hkD : NMap.keys (NMap.insert dist nbr (some (cd + w))) =
              NMap.keys dist := NMap.keys_insert_of_mem _ hnbrD
          have hkP : NMap.keys (NMap.insert par nbr (some cur)) =
              NMap.keys par := NMap.keys_insert_of_mem _ (hkk nbr hnbrD)
          have hkk2 : ∀ n : Node,
              n ∈ NMap.keys (NMap.insert dist nbr (some (cd + w))) →
              n ∈ NMap.keys (NMap.insert par nbr (some cur)) := by
            intro n hn
            rw [hkD] at hn
            rw [hkP]
            exact hkk n hn
          obtain ⟨k1, k2, k3, k4, k5, k6⟩ := ih hkk2 h
          refine ⟨k1.trans hkD, k2.trans hkP, ?_, ?_, ?_, ?_⟩
          · intro z hz
            exact k3 z (List.mem_append_left _ hz)
          · intro z hz
            rcases k4 z hz with h1 | h1
            · rcases List.mem_append.mp h1 with h2 | h2
              · exact Or.inl h2
              · simp at h2
                subst h2
                refine Or.inr ⟨⟨w, ?_⟩, ?_⟩
                · simp
                · simpa using hnbrD
            · refine Or.inr ⟨⟨h1.1.choose,
                List.mem_cons_of_mem _ h1.1.choose_spec⟩, ?_⟩
              rw [← hkD]
              exact h1.2
          · intro n m hm
            rcases k5 n m hm with h1 | h1
            · by_cases hn : n = nbr
              · rw [hn, NMap.find?_insert_self] at h1
                have hmc : cur = m := by
                  simpa using h1
                exact Or.inr ⟨hmc.symm, hn ▸ hv⟩
              · rw [NMap.find?_insert_ne _ _ hn] at h1
                exact Or.inl h1
            · exact Or.inr h1
          · intro n d hd
            rcases k6 n d hd with h1 | h1
            · by_cases hn : n = nbr
              · refine Or.inr ⟨w, ?_⟩
                rw [hn]
                simp
              · rw [NMap.find?_insert_ne _ _ hn] at h1
                exact Or.inl h1
            · exact Or.inr ⟨h1.choose, List.mem_cons_of_mem _ h1.choose_spec⟩
        · rw [if_neg hlt] at h
          obtain ⟨k1, k2, k3, k4, k5, k6⟩ := ih hkk h
          refine ⟨k1, k2, k3, ?_, k5, ?_⟩
          · intro z hz
            rcases k4 z hz with h1 | h1
            · exact Or.inl h1
            · exact Or.inr ⟨⟨h1.1.choose,
                List.mem_cons_of_mem _ h1.1.choose_spec⟩, h1.2⟩
          · intro n d hd
            rcases k6 n d hd with h1 | h1
            · exact Or.inl h1
            · exact Or.inr ⟨h1.choose, List.mem_cons_of_mem _ h1.choose_spec⟩

/-- The relaxation pass cannot raise a KeyError when every adjacency entry
mentions a key of the distance dict. -/
theorem relaxAll_isSome {cur : Node} {cd : Wt} {vis : List Node} :
    ∀ {adj : List (Node × Wt)} {pq : List (Wt × Node)}
      {dist : NMap (Option Wt)} {par : NMap (Option Node)},
      (∀ q ∈ adj, (Prod.fst q) ∈ NMap.keys dist) →
      (relaxAll cur cd vis adj pq dist par).isSome = true := by
  intro adj
  induction adj with
  | nil =>
    intro pq dist par hk
    simp [relaxAll]
  | cons q rest ih =>
    intro pq dist par hk
    rcases q with ⟨nbr, w⟩
    by_cases hv : nbr ∈ vis
    · rw [relaxAll, if_pos hv]
      exact ih (fun q hq => hk q (List.mem_cons_of_mem _ hq))
    · rw [relaxAll, if_neg hv]
      have hnbr : nbr ∈ NMap.keys dist := hk (nbr, w) (List.mem_cons_self _ _)
      rw [NMap.mem_keys_iff] at hnbr
      obtain ⟨dOld, hf⟩ := Option.isSome_iff_exists.mp hnbr
      simp only [hf]
      by_cases hlt : ltO (cd + w) dOld = true
      · rw [if_pos hlt]
        apply ih
        intro q hq
        rw [NMap.keys_insert_of_mem]
        · exact hk q (List.mem_cons_of_mem _ hq)
        · rw [NMap.mem_keys_iff]
          simp [hf]
      · rw [if_neg hlt]
        exact ih (fun q hq => hk q (List.mem_cons_of_mem _ hq))

theorem initDist_find?_self (g : Graph) (s : Node) :
    NMap.find? (initDist g s) s = some (some 0) := by
  unfold initDist
  exact NMap.find?_insert_self _ _ _

theorem initDist_find?_ne (g : Graph) (s : Node) {n : Node} (hn : n ≠ s) :
    NMap.find? (initDist g s) n =
      if (NMap.find? g n).isSome then some none else none := by
  unfold initDist
  rw [NMap.find?_insert_ne _ _ hn, NMap.find?_map_const]

theorem initPar_find? (g : Graph) (n : Node) :
    NMap.find? (initPar g) n =
      if (NMap.find? g n).isSome then some none else none := by
  unfold initPar
  rw [NMap.find?_map_const]

theorem initDist_keys (g : Graph) (s : Node)
    (hs : (NMap.find? g s).isSome = true) :
    NMap.keys (initDist g s) = NMap.keys g := by
  unfold initDist
  rw [NMap.keys_insert_of_mem]
  · exact NMap.keys_map_fst g (fun _ => none)
  · rw [NMap.keys_map_fst g (fun _ => none), NMap.mem_keys_iff]
    exact hs

theorem initPar_keys (g : Graph) :
    NMap.keys (initPar g) = NMap.keys g :=
  NMap.keys_map_fst g (fun _ => none)

/-- The initial loop state satisfies the totality invariant. -/
theorem TInv_init {g : Graph} {s : Node}
    (hs : (NMap.find? g s).isSome = true) :
    TInv g s [(0, s)] (initDist g s) (initPar g) [] := by
  refine ⟨initDist_keys g s hs, initPar_keys g, ?_, List.nodup_nil, ?_, ?_,
    ?_, ?_⟩
  · intro n hn
    simp at hn
  · intro q hq
    simp at hq
    rw [hq, NMap.mem_keys_iff]
    exact hs
  · intro n m hm
    rw [initPar_find? g n] at hm
    by_cases hg : (NMap.find? g n).isSome = true
    · rw [if_pos hg] at hm
      simp at hm
    · rw [if_neg hg] at hm
      simp at hm
  · intro q hq
    simp at hq
    rw [hq]
    exact ⟨[s], Walk.single⟩
  · intro n d hd
    by_cases hn : n = s
    · rw [hn]
      exact ⟨[s], Walk.single⟩
    · rw [initDist_find?_ne g s hn] at hd
      by_cases hg : (NMap.find? g n).isSome = true
      · rw [if_pos hg] at hd
        simp at hd
      · rw [if_neg hg] at hd
        simp at hd

/-- A duplicate-free list of graph keys is no longer than the key list. -/
theorem nodup_length_le {V W : List Node} (hnd : V.Nodup)
    (hsub : ∀ n ∈ V, n ∈ W) : V.length ≤ W.length := by
  classical
  calc V.length = V.toFinset.card := (List.toFinset_card_of_nodup hnd).symm
    _ ≤ W.toFinset.card := by
        apply Finset.card_le_card
        intro a ha
        rw [List.mem_toFinset] at ha
        rw [List.mem_toFinset]
        exact hsub a ha
    _ ≤ W.length := List.toFinset_card_le W

theorem ClosedP_of_ClosedB {g : Graph} (h : ClosedB g = true) : ClosedP g := by
  intro x adj hfind q hq
  unfold ClosedB at h
  rw [List.all_eq_true] at h
  have h1 := h (x, adj) (NMap.find?_some_mem hfind)
  rw [List.all_eq_true] at h1
  simpa using h1 q hq

/-- Every successful run of the priority-queue loop preserves the totality
invariant into its final distance and parent dicts, for some final heap and
visited list. -/
theorem dloop_TInv {g : Graph} {s en : Node} :
    ∀ fuel pq dist par vis {D : NMap (Option Wt)} {P : NMap (Option Node)},
      TInv g s pq dist par vis →
      dloop g en fuel pq dist par vis = LoopRes.ok D P →
      ∃ pqF V, TInv g s pqF D P V := by
  intro fuel
  induction fuel with
  | zero =>
    intro pq dist par vis D P hinv h
    cases pq with
    | nil =>
      rw [dloop] at h
      obtain ⟨h1, h2⟩ := LoopRes.ok.inj h
      exact ⟨[], vis, h1 ▸ h2 ▸ hinv⟩
    | cons p ps => simp [dloop] at h
  | succ f ih =>
    intro pq dist par vis D P hinv h
    cases pq with
    | nil =>
      rw [dloop] at h
      obtain ⟨h1, h2⟩ := LoopRes.ok.inj h
      exact ⟨[], vis, h1 ▸ h2 ▸ hinv⟩
    | cons p ps =>
      rcases hP : popMin p ps with ⟨⟨cd, node⟩, pq'⟩
      obtain ⟨hmem, hrest, hmin⟩ := popMin_spec hP
      have hsub' : ∀ z ∈ pq', z ∈ p :: ps := by
        intro z hz
        rw [hrest] at hz
        exact removeFirst_subset hz
      rw [dloop] at h
      simp only [hP] at h
      by_cases hv : node ∈ vis
      · rw [if_pos hv] at h
        refine ih pq' dist par vis ?_ h
        exact ⟨hinv.keysD, hinv.keysP, hinv.visSub, hinv.visNodup,
          fun q hq => hinv.qKeys q (hsub' q hq), hinv.jpar,
          fun q hq => hinv.reachPq q (hsub' q hq), hinv.reachDist⟩
      · rw [if_neg hv] at h
        by_cases he : node = en
        · rw [if_pos he] at h
          obtain ⟨h1, h2⟩ := LoopRes.ok.inj h
          refine ⟨pq', vis, h1 ▸ h2 ▸ ?_⟩
          exact ⟨hinv.keysD, hinv.keysP, hinv.visSub, hinv.visNodup,
            fun q hq => hinv.qKeys q (hsub' q hq), hinv.jpar,
            fun q hq => hinv.reachPq q (hsub' q hq), hinv.reachDist⟩
        · rw [if_neg he] at h
          cases hf : NMap.find? g node with
          | none =>
            simp only [hf] at h
            simp at h
          | some adj =>
            simp only [hf] at h
            cases hr : relaxAll node cd (node :: vis) adj pq' dist par with
            | none =>
              simp only [hr] at h
              simp at h
            | some res =>
              rcases res with ⟨pq2, dist2, par2⟩
              simp only [hr] at h
              have hkk : ∀ n : Node, n ∈ NMap.keys dist →
                  n ∈ NMap.keys par := by
                intro n hn
                rw [hinv.keysD] at hn
                rw [hinv.keysP]
                exact hn
              obtain ⟨k1, k2, k3, k4, k5, k6⟩ := relaxAll_basic hkk hr
              have hnodeK : node ∈ NMap.keys g := by
                rw [NMap.mem_keys_iff]
                simp [hf]
              have hreachNode : Reach g s node :=
                hinv.reachPq (cd, node) hmem
              have hedge : ∀ y w2, (y, w2) ∈ adj → ∃ w3,
                  lookup2 g node y = some w3 := by
                intro y w2 hyw
                rw [lookup2_some_of_find? y hf]
                have : y ∈ NMap.keys adj :=
                  List.mem_map.mpr ⟨(y, w2), hyw, rfl⟩
                rw [NMap.mem_keys_iff] at this
                exact Option.isSome_iff_exists.mp this
              have hreachAdj : ∀ y w2, (y, w2) ∈ adj → Reach g s y := by
                intro y w2 hyw
                obtain ⟨w3, hw3⟩ := hedge y w2 hyw
                obtain ⟨pw, hpw⟩ := hreachNode
                exact ⟨pw ++ [y], Walk.snoc w3 hpw hw3⟩
              refine ih pq2 dist2 par2 (node :: vis) ?_ h
              refine ⟨k1.trans hinv.keysD, k2.trans hinv.keysP, ?_, ?_, ?_,
                ?_, ?_, ?_⟩
              · intro n hn
                rcases List.mem_cons.mp hn with h1 | h1
                · rw [h1]
                  exact hnodeK
                · exact hinv.visSub n h1
              · exact List.nodup_cons.mpr ⟨hv, hinv.visNodup⟩
              · intro q hq
                rcases k4 q hq with h1 | h1
                · exact hinv.qKeys q (hsub' q h1)
                · rw [← hinv.keysD]
                  exact h1.2
              · intro n m hm
                rcases k5 n m hm with h1 | h1
                · obtain ⟨pre, post, hVis, hnpost⟩ := hinv.jpar n m h1
                  exact ⟨node :: pre, post, by rw [hVis]; rfl, hnpost⟩
                · obtain ⟨hm1, hm2⟩ := h1
                  subst hm1
                  exact ⟨[], vis, rfl, hm2⟩
              · intro q hq
                rcases k4 q hq with h1 | h1
                · exact hinv.reachPq q (hsub' q h1)
                · obtain ⟨⟨w2, hw2⟩, _⟩ := h1
                  exact hreachAdj _ w2 hw2
              · intro n d hd
                rcases k6 n d hd with h1 | h1
                · exact hinv.reachDist n d h1
                · obtain ⟨w2, hw2⟩ := h1
                  exact hreachAdj n w2 hw2

/-- On a closed graph the priority-queue loop never raises a KeyError. -/
theorem dloop_no_keyErr {g : Graph} {s en : Node} (hcl : ClosedP g) :
    ∀ fuel pq dist par vis,
      TInv g s pq dist par vis →
      dloop g en fuel pq dist par vis ≠ LoopRes.keyErr := by
  intro fuel
  induction fuel with
  | zero =>
    intro pq dist par vis hinv
    cases pq with
    | nil => simp [dloop]
    | cons p ps => simp [dloop]
  | succ f ih =>
    intro pq dist par vis hinv
    cases pq with
    | nil => simp [dloop]
    | cons p ps =>
      rcases hP : popMin p ps with ⟨⟨cd, node⟩, pq'⟩
      obtain ⟨hmem, hrest, hmin⟩ := popMin_spec hP
      have hsub' : ∀ z ∈ pq', z ∈ p :: ps := by
        intro z hz
        rw [hrest] at hz
        exact removeFirst_subset hz
      rw [dloop]
      simp only [hP]
      by_cases hv : node ∈ vis
      · rw [if_pos hv]
        refine ih pq' dist par vis ?_
        exact ⟨hinv.keysD, hinv.keysP, hinv.visSub, hinv.visNodup,
          fun q hq => hinv.qKeys q (hsub' q hq), hinv.jpar,
          fun q hq => hinv.reachPq q (hsub' q hq), hinv.reachDist⟩
      · rw [if_neg hv]
        by_cases he : node = en
        · rw [if_pos he]
          simp
        · rw [if_neg he]
          have hnodeK : node ∈ NMap.keys g := hinv.qKeys (cd, node) hmem
          rw [NMap.mem_keys_iff] at hnodeK
          obtain ⟨adj, hf⟩ := Option.isSome_iff_exists.mp hnodeK
          simp only [hf]
          have hadjk : ∀ q ∈ adj, (Prod.fst q) ∈ NMap.keys dist := by
            intro q hq
            rw [hinv.keysD, NMap.mem_keys_iff]
            exact hcl node adj hf q hq
          have hrs : (relaxAll node cd (node :: vis) adj pq' dist par).isSome =
              true := relaxAll_isSome hadjk
          obtain ⟨res, hr⟩ := Option.isSome_iff_exists.mp hrs
          rcases res with ⟨pq2, dist2, par2⟩
          simp only [hr]
          have hkk : ∀ n : Node, n ∈ NMap.keys dist →
              n ∈ NMap.keys par := by
            intro n hn
            rw [hinv.keysD] at hn
            rw [hinv.keysP]
            exact hn
          obtain ⟨k1, k2, k3, k4, k5, k6⟩ := relaxAll_basic hkk hr
          have hreachNode : Reach g s node := hinv.reachPq (cd, node) hmem
          have hedge : ∀ y w2, (y, w2) ∈ adj → ∃ w3,
              lookup2 g node y = some w3 := by
            intro y w2 hyw
            rw [lookup2_some_of_find? y hf]
            have : y ∈ NMap.keys adj :=
              List.mem_map.mpr ⟨(y, w2), hyw, rfl⟩
            rw [NMap.mem_keys_iff] at this
            exact Option.isSome_iff_exists.mp this
          have hreachAdj : ∀ y w2, (y, w2) ∈ adj → Reach g s y := by
            intro y w2 hyw
            obtain ⟨w3, hw3⟩ := hedge y w2 hyw
            obtain ⟨pw, hpw⟩ := hreachNode
            exact ⟨pw ++ [y], Walk.snoc w3 hpw hw3⟩
          refine ih pq2 dist2 par2 (node :: vis) ?_
          refine ⟨k1.trans hinv.keysD, k2.trans hinv.keysP, ?_, ?_, ?_,
            ?_, ?_, ?_⟩
          · intro n hn
            rcases List.mem_cons.mp hn with h1 | h1
            · rw [h1, NMap.mem_keys_iff]
              simp [hf]
            · exact hinv.visSub n h1
          · exact List.nodup_cons.mpr ⟨hv, hinv.visNodup⟩
          · intro q hq
            rcases k4 q hq with h1 | h1
            · exact hinv.qKeys q (hsub' q h1)
            · rw [← hinv.keysD]
              exact h1.2
          · intro n m hm
            rcases k5 n m hm with h1 | h1
            · obtain ⟨pre, post, hVis, hnpost⟩ := hinv.jpar n m h1
              exact ⟨node :: pre, post, by rw [hVis]; rfl, hnpost⟩
            · obtain ⟨hm1, hm2⟩ := h1
              subst hm1
              exact ⟨[], vis, rfl, hm2⟩
          · intro q hq
            rcases k4 q hq with h1 | h1
            · exact hinv.reachPq q (hsub' q h1)
            · obtain ⟨⟨w2, hw2⟩, _⟩ := h1
              exact hreachAdj _ w2 hw2
          · intro n d hd
            rcases k6 n d hd with h1 | h1
            · exact hinv.reachDist n d h1
            · obtain ⟨w2, hw2⟩ := h1
              exact hreachAdj n w2 hw2

theorem isNone_absurd {α : Type} {o : Option α} (h : o.isSome = true) :
    o.isNone = true → False := by
  cases o <;> simp_all

/-- After a successful loop run, the reconstruction loop returns normally
within its fuel. -/
theorem buildLoop_total {g : Graph} {s : Node} {pqF : List (Wt × Node)}
    {D : NMap (Option Wt)} {P : NMap (Option Node)} {V : List Node}
    (hinv : TInv g s pqF D P V) {e : Node}
    (he : (NMap.find? g e).isSome = true) :
    ∃ acc, buildLoop P (g.length + 1) (some e) [] = BOut.ok acc := by
  have hkeys : ∀ n ∈ V, (NMap.find? P n).isSome = true := by
    intro n hn
    rw [← NMap.mem_keys_iff, hinv.keysP]
    exact hinv.visSub n hn
  have hVlen : V.length < g.length + 1 := by
    have h1 : V.length ≤ (NMap.keys g).length :=
      nodup_length_le hinv.visNodup hinv.visSub
    have h2 : (NMap.keys g).length = g.length := List.length_map _ _
    omega
  have hePar : (NMap.find? P e).isSome = true := by
    rw [← NMap.mem_keys_iff, hinv.keysP, NMap.mem_keys_iff]
    exact he
  have hparents : ∀ m, NMap.find? P e = some (some m) → m ∈ V := by
    intro m hm
    obtain ⟨pre, post, hV, _⟩ := hinv.jpar e m hm
    rw [hV]
    simp
  obtain ⟨q, hq, _⟩ := buildLoop_ok hinv.jpar hkeys (g.length + 1) V e []
    (List.suffix_refl V) hparents hVlen hePar
  exact ⟨[] ++ q, hq⟩

theorem erase_length_le {α : Type} (l : NMap α) (k : Node) :
    (l.erase k).length ≤ l.length := by
  induction l with
  | nil => simp [NMap.erase]
  | cons hd tl ih =>
    by_cases hk : k = hd.1
    · simp only [NMap.erase, if_pos hk]
      simp
    · simp only [NMap.erase, if_neg hk, List.length_cons]
      omega

theorem map_const_entries {α β : Type} (g : NMap α) (c : β) :
    g.map (fun p => (p.1, c)) = (NMap.keys g).map (fun k => (k, c)) := by
  induction g with
  | nil => rfl
  | cons hd tl ih => simp [NMap.keys, ih]

theorem degSum_insert_le {m : Graph} {u : Node} {adj l2 : NMap Wt}
    (hf : NMap.find? m u = some adj) (hlen : l2.length ≤ adj.length)
    (vis : List Node) : degSum (NMap.insert m u l2) vis ≤ degSum m vis := by
  induction m with
  | nil => simp [NMap.find?] at hf
  | cons hd tl ih =>
    rcases hd with ⟨k, av⟩
    by_cases hk : u = k
    · have hav : av = adj := by
        rw [NMap.find?, if_pos hk] at hf
        exact (Option.some.injEq _ _).mp hf
      simp only [NMap.insert, if_pos hk, degSum]
      rw [← hk]
      by_cases hv : u ∈ vis
      · simp only [if_pos hv]
        exact le_refl _
      · simp only [if_neg hv, hav]
        omega
    · have hf2 : NMap.find? tl u = some adj := by
        rw [NMap.find?, if_neg (fun h => hk h)] at hf
        exact hf
      simp only [NMap.insert, if_neg hk, degSum]
      have := ih hf2
      omega

/-- Relaxation skips entries whose key is already visited, so erasing such
an entry from the adjacency list changes nothing. -/
theorem relaxAll_erase_key {a cur : Node} {cd : Wt} {vis : List Node}
    (ha : a ∈ vis) :
    ∀ (l : NMap Wt) pq dist par,
      relaxAll cur cd vis (l.erase a) pq dist par =
        relaxAll cur cd vis l pq dist par := by
  intro l
  induction l with
  | nil =>
    intro pq dist par
    rfl
  | cons hd tl ih =>
    intro pq dist par
    rcases hd with ⟨k, v⟩
    by_cases hk : a = k
    · simp only [NMap.erase, if_pos hk]
      rw [relaxAll, if_pos (hk ▸ ha)]
    · simp only [NMap.erase, if_neg hk]
      by_cases hkv : k ∈ vis
      · rw [relaxAll, if_pos hkv, relaxAll, if_pos hkv]
        exact ih pq dist par
      · rw [relaxAll, if_neg hkv, relaxAll, if_neg hkv]
        cases hf : NMap.find? dist k with
        | none => rfl
        | some dOld =>
          dsimp only
          by_cases hlt : ltO (cd + v) dOld = true
          · simp only [if_pos hlt]
            exact ih _ _ _
          · simp only [if_neg hlt]
            exact ih _ _ _

/-- Two graphs that agree on every node except a distinguished key `a`,
and whose adjacencies for `a` relax identically once `a` is visited, drive
the priority-queue loop to identical results at every fuel. -/
theorem dloop_graph_eq {g1 g2 : Graph} {a : Node}
    (hne : ∀ x, x ≠ a → NMap.find? g2 x = NMap.find? g1 x)
    (hA : (NMap.find? g1 a = none ∧ NMap.find? g2 a = none) ∨
      (∃ adj1 adj2, NMap.find? g1 a = some adj1 ∧
        NMap.find? g2 a = some adj2 ∧
        ∀ cur cd vis pq dist par, a ∈ vis →
          relaxAll cur cd vis adj2 pq dist par =
            relaxAll cur cd vis adj1 pq dist par))
    (en : Node) :
    ∀ fuel pq dist par vis,
      dloop g1 en fuel pq dist par vis =
        dloop g2 en fuel pq dist par vis := by
  intro fuel
  induction fuel with
  | zero =>
    intro pq dist par vis
    cases pq with
    | nil => rfl
    | cons p ps => rfl
  | succ f ih =>
    intro pq dist par vis
    cases pq with
    | nil => rfl
    | cons p ps =>
      rcases hP : popMin p ps with ⟨⟨cd, node⟩, pq'⟩
      rw [dloop, dloop]
      simp only [hP]
      by_cases hv : node ∈ vis
      · simp only [if_pos hv]
        exact ih pq' dist par vis
      · simp only [if_neg hv]
        by_cases he : node = en
        · simp only [if_pos he]
        · simp only [if_neg he]
          by_cases hna : node = a
          · rcases hA with ⟨h1, h2⟩ | ⟨adj1, adj2, h1, h2, h3⟩
            · rw [hna, h1, h2]
            · rw [hna]
              simp only [h1, h2]
              rw [h3 a cd (a :: vis) pq' dist par (List.mem_cons_self _ _)]
              cases hr : relaxAll a cd (a :: vis) adj1 pq' dist par with
              | none => rfl
              | some res =>
                rcases res with ⟨pq2, dist2, par2⟩
                simp only
                exact ih pq2 dist2 par2 (a :: vis)
          · rw [hne node hna]
            cases hf : NMap.find? g1 node with
            | none => rfl
            | some adj =>
              simp only
              cases hr : relaxAll node cd (node :: vis) adj pq' dist par with
              | none => rfl
              | some res =>
                rcases res with ⟨pq2, dist2, par2⟩
                simp only
                exact ih pq2 dist2 par2 (node :: vis)

/-- Adding fuel beyond what a terminating run needs does not change the
result of the priority-queue loop. -/
theorem dloop_fuel_stable {g : Graph} {en : Node} :
    ∀ f k pq dist par vis,
      dloop g en f pq dist par vis ≠ LoopRes.fuelOut →
      dloop g en (f + k) pq dist par vis =
        dloop g en f pq dist par vis := by
  intro f
  induction f with
  | zero =>
    intro k pq dist par vis h
    cases pq with
    | nil =>
      cases k with
      | zero => rfl
      | succ k2 => rfl
    | cons p ps => exact absurd rfl h
  | succ f2 ih =>
    intro k pq dist par vis h
    cases pq with
    | nil =>
      have hk : f2 + 1 + k = (f2 + k) + 1 := by omega
      rw [hk]
      rfl
    | cons p ps =>
      have hk : f2 + 1 + k = (f2 + k) + 1 := by omega
      rw [hk]
      rcases hP : popMin p ps with ⟨⟨cd, node⟩, pq'⟩
      rw [dloop, dloop]
      simp only [hP]
      rw [dloop] at h
      simp only [hP] at h
      by_cases hv : node ∈ vis
      · simp only [if_pos hv]
        rw [if_pos hv] at h
        exact ih k pq' dist par vis h
      · simp only [if_neg hv]
        rw [if_neg hv] at h
        by_cases he : node = en
        · simp only [if_pos he]
        · simp only [if_neg he]
          rw [if_neg he] at h
          cases hf : NMap.find? g node with
          | none => rfl
          | some adj =>
            simp only [hf] at h
            simp only
            cases hr : relaxAll node cd (node :: vis) adj pq' dist par with
            | none => rfl
            | some res =>
              rcases res with ⟨pq2, dist2, par2⟩
              simp only [hr] at h
              simp only
              exact ih k pq2 dist2 par2 (node :: vis) h

/-- Structure of `remove_edge(a, a)` applied right after `add_edge(a, a, w)`:
keys unchanged, total degree not larger, every other node's adjacency dict
untouched, and the two adjacency dicts of `a` relax identically once `a`
is visited. -/
theorem removeEdge_addEdge_self_spec (g : Graph) (a : Node) (w : Wt) :
    NMap.keys (removeEdge (addEdge g a a w) a a) =
        NMap.keys (addEdge g a a w) ∧
    degSum (removeEdge (addEdge g a a w) a a) [] ≤
        degSum (addEdge g a a w) [] ∧
    (∀ x, x ≠ a → NMap.find? (removeEdge (addEdge g a a w) a a) x =
        NMap.find? (addEdge g a a w) x) ∧
    (∃ adj1 adj2, NMap.find? (addEdge g a a w) a = some adj1 ∧
      NMap.find? (removeEdge (addEdge g a a w) a a) a = some adj2 ∧
      ∀ cur cd vis pq dist par, a ∈ vis →
        relaxAll cur cd vis adj2 pq dist par =
          relaxAll cur cd vis adj1 pq dist par) := by
  have hl : lookup2 (addEdge g a a w) a a = some w := by
    rw [lookup2_addEdge]
    simp
  obtain ⟨adj1, h1⟩ :
      ∃ adj1, NMap.find? (addEdge g a a w) a = some adj1 := by
    cases hf : NMap.find? (addEdge g a a w) a with
    | none =>
      rw [lookup2_none_of_find? a hf] at hl
      exact absurd hl (by simp)
    | some adj => exact ⟨adj, rfl⟩
  have hfa : NMap.find? adj1 a = some w := by
    rw [lookup2_some_of_find? a h1] at hl
    exact hl
  have hsome : (NMap.find? adj1 a).isSome = true := by
    rw [hfa]
    rfl
  have hm : delHalf (addEdge g a a w) a a =
      (addEdge g a a w).insert a (adj1.erase a) :=
    delHalf_eq_of_hit a h1 hsome
  have hgm : NMap.find? ((addEdge g a a w).insert a (adj1.erase a)) a =
      some (adj1.erase a) := NMap.find?_insert_self _ _ _
  have hnex : ∀ x, x ≠ a →
      NMap.find? (removeEdge (addEdge g a a w) a a) x =
        NMap.find? (addEdge g a a w) x := by
    intro x hx
    unfold removeEdge
    rw [find?_delHalf_ne _ a a hx, find?_delHalf_ne _ a a hx]
  by_cases hb : (NMap.find? (adj1.erase a) a).isSome = true
  · have hg2 : removeEdge (addEdge g a a w) a a =
        ((addEdge g a a w).insert a (adj1.erase a)).insert a
          ((adj1.erase a).erase a) := by
      unfold removeEdge
      rw [hm]
      exact delHalf_eq_of_hit a hgm hb
    refine ⟨keys_removeEdge _ a a, ?_, hnex, ?_⟩
    · rw [hg2]
      calc degSum (((addEdge g a a w).insert a (adj1.erase a)).insert a
              ((adj1.erase a).erase a)) []
          ≤ degSum ((addEdge g a a w).insert a (adj1.erase a)) [] :=
            degSum_insert_le hgm (erase_length_le _ a) []
        _ ≤ degSum (addEdge g a a w) [] :=
            degSum_insert_le h1 (erase_length_le _ a) []
    · refine ⟨adj1, (adj1.erase a).erase a, h1, ?_, ?_⟩
      · rw [hg2]
        exact NMap.find?_insert_self _ _ _
      · intro cur cd vis pq dist par ha
        rw [relaxAll_erase_key ha, relaxAll_erase_key ha]
  · have hg2 : removeEdge (addEdge g a a w) a a =
        (addEdge g a a w).insert a (adj1.erase a) := by
      unfold removeEdge
      rw [hm]
      exact delHalf_eq_of_miss a hgm hb
    refine ⟨keys_removeEdge _ a a, ?_, hnex, ?_⟩
    · rw [hg2]
      exact degSum_insert_le h1 (erase_length_le _ a) []
    · refine ⟨adj1, adj1.erase a, h1, ?_, ?_⟩
      · rw [hg2]
        exact NMap.find?_insert_self _ _ _
      · intro cur cd vis pq dist par ha
        rw [relaxAll_erase_key ha]

/-- Graphs related as in `dloop_graph_eq`, with equal key lists and a
not-larger degree sum, produce identical `dijkstra` results. -/
theorem dijkstra_eq_of_equiv {g1 g2 : Graph} {a : Node}
    (hkeys : NMap.keys g2 = NMap.keys g1)
    (hdeg : degSum g2 [] ≤ degSum g1 [])
    (hne : ∀ x, x ≠ a → NMap.find? g2 x = NMap.find? g1 x)
    (hA : (NMap.find? g1 a = none ∧ NMap.find? g2 a = none) ∨
      (∃ adj1 adj2, NMap.find? g1 a = some adj1 ∧
        NMap.find? g2 a = some adj2 ∧
        ∀ cur cd vis pq dist par, a ∈ vis →
          relaxAll cur cd vis adj2 pq dist par =
            relaxAll cur cd vis adj1 pq dist par))
    (s e : Node) : dijkstra g1 s e = dijkstra g2 s e := by
  have hlen : g2.length = g1.length := by
    have h := congrArg List.length hkeys
    simpa [NMap.keys] using h
  have hmem : ∀ x, (NMap.find? g2 x).isSome = (NMap.find? g1 x).isSome := by
    intro x
    have hx : ((NMap.find? g2 x).isSome = true) ↔
        ((NMap.find? g1 x).isSome = true) := by
      rw [← NMap.mem_keys_iff, ← NMap.mem_keys_iff, hkeys]
    cases h2 : (NMap.find? g2 x).isSome <;>
      cases h1 : (NMap.find? g1 x).isSome <;> simp_all
  have hnone : ∀ x, (NMap.find? g2 x).isNone = (NMap.find? g1 x).isNone := by
    intro x
    have hx := hmem x
    cases h2 : NMap.find? g2 x <;> cases h1 : NMap.find? g1 x <;>
      simp_all
  unfold dijkstra
  have hcond : ((NMap.find? g2 s).isNone = true ∨
      (NMap.find? g2 e).isNone = true) ↔
      ((NMap.find? g1 s).isNone = true ∨
        (NMap.find? g1 e).isNone = true) := by
    rw [hnone s, hnone e]
  by_cases hc : (NMap.find? g1 s).isNone = true ∨
      (NMap.find? g1 e).isNone = true
  · rw [if_pos hc, if_pos (hcond.mpr hc)]
  · rw [if_neg hc, if_neg (fun h => hc (hcond.mp h))]
    have hinitD : initDist g2 s = initDist g1 s := by
      unfold initDist
      rw [map_const_entries, map_const_entries, hkeys]
    have hinitP : initPar g2 = initPar g1 := by
      unfold initPar
      rw [map_const_entries, map_const_entries, hkeys]
    have hdl : dloop g1 e (2 + degSum g1 []) [(0, s)] (initDist g1 s)
        (initPar g1) [] =
        dloop g2 e (2 + degSum g2 []) [(0, s)] (initDist g2 s)
          (initPar g2) [] := by
      rw [hinitD, hinitP]
      rw [dloop_graph_eq hne hA e]
      have hsplit : 2 + degSum g1 [] =
          (2 + degSum g2 []) + (degSum g1 [] - degSum g2 []) := by omega
      rw [hsplit]
      apply dloop_fuel_stable
      apply dloop_ne_fuelOut
      simp only [List.length_cons, List.length_nil]
      omega
    rw [← hdl, hlen]

theorem walk_last {g : Graph} {s u : Node} {p : List Node}
    (h : Walk g s u p) : p.getLast? = some u := by
  induction h with
  | single => rfl
  | snoc w hw he ih => simp [List.getLast?_concat]

theorem walk_head {g : Graph} {s u : Node} {p : List Node}
    (h : Walk g s u p) : p.head? = some s := by
  induction h with
  | single => rfl
  | snoc w hw he ih =>
    rename_i u2 v2 p2
    cases p2 with
    | nil => simp at ih
    | cons x xs =>
      simp only [List.cons_append, List.head?_cons]
      simpa using ih

theorem walkW_append_single (g : Graph) :
    ∀ (p : List Node) (u v : Node), p.getLast? = some u →
      walkW g (p ++ [v]) = walkW g p + (lookup2 g u v).getD 0 := by
  intro p
  induction p with
  | nil =>
    intro u v h
    simp at h
  | cons x rest ih =>
    intro u v h
    cases rest with
    | nil =>
      have hu : x = u := by simpa using h
      subst hu
      show walkW g [x, v] = walkW g [x] + (lookup2 g x v).getD 0
      simp [walkW]
    | cons y rest2 =>
      have h2 : (y :: rest2).getLast? = some u := by simpa using h
      have h3 := ih u v h2
      simp only [List.cons_append] at h3 ⊢
      rw [walkW, walkW, h3]
      ring

theorem walkW_snoc {g : Graph} {s u v : Node} {p : List Node} {w : Wt}
    (hw : Walk g s u p) (he : lookup2 g u v = some w) :
    walkW g (p ++ [v]) = walkW g p + w := by
  rw [walkW_append_single g p u v (walk_last hw), he]
  rfl

theorem walk_nonneg {g : Graph} (hpos : PosP g) {s u : Node} {p : List Node}
    (hw : Walk g s u p) : 0 ≤ walkW g p := by
  induction hw with
  | single => simp [walkW]
  | snoc w hw2 he ih =>
    rw [walkW_snoc hw2 he]
    exact add_nonneg ih (le_of_lt (hpos _ _ _ he))

/-- The executable positivity check implies propositional positivity. -/
theorem PosP_of_PosB {g : Graph} (h : PosB g = true) : PosP g := by
  intro x y w hxy
  unfold PosB at h
  rw [List.all_eq_true] at h
  cases hf : NMap.find? g x with
  | none =>
    rw [lookup2_none_of_find? y hf] at hxy
    simp at hxy
  | some adj =>
    rw [lookup2_some_of_find? y hf] at hxy
    have h1 := h (x, adj) (NMap.find?_some_mem hf)
    rw [List.all_eq_true] at h1
    have h2 := h1 (y, w) (NMap.find?_some_mem hxy)
    simpa using h2

/-- Well-formed symmetric graphs are closed: every mentioned neighbor is a
graph key (it holds its own adjacency dict containing the mirror edge). -/
theorem ClosedP_of_Symm {g : Graph} (hWF : WFP g) (hsym : Symm g) :
    ClosedP g := by
  intro x adj hfind q hq
  have hnd : (NMap.keys (Prod.snd (x, adj))).Nodup :=
    hWF.2 (x, adj) (NMap.find?_some_mem hfind)
  obtain ⟨y, w⟩ := q
  have h1 : NMap.find? adj y = some w := NMap.find?_eq_of_mem hnd hq
  have h2 : lookup2 g x y = some w := by
    rw [lookup2_some_of_find? y hfind]
    exact h1
  have h3 : lookup2 g y x = some w := (hsym x y w).mp h2
  cases hf : NMap.find? g y with
  | none =>
    rw [lookup2_none_of_find? x hf] at h3
    simp at h3
  | some a2 => rfl

theorem dval_eq_coe {dist : NMap (Option Wt)} {n : Node} {d : Wt}
    (h : NMap.find? dist n = some (some d)) :
    dval dist n = (d : WithTop Wt) := by
  unfold dval
  rw [h]

theorem dval_finite {dist : NMap (Option Wt)} {n : Node} {c : WithTop Wt}
    (hc : c ≠ ⊤) (h : dval dist n ≤ c) :
    ∃ d, NMap.find? dist n = some (some d) ∧ (d : WithTop Wt) ≤ c := by
  unfold dval at h
  cases hf : NMap.find? dist n with
  | none =>
    rw [hf] at h
    exact absurd (top_le_iff.mp h) hc
  | some o =>
    cases o with
    | none =>
      rw [hf] at h
      exact absurd (top_le_iff.mp h) hc
    | some d =>
      rw [hf] at h
      exact ⟨d, rfl, h⟩

/-- Per-key effect of one full relaxation pass over an adjacency list with
duplicate-free keys: the heap only grows, every new heap entry carries the
final tentative distance of its node, and each key is either untouched
(every guard for it failed) or updated exactly as by its successful
guard. -/
theorem relaxAll_spec {cur : Node} {cd : Wt} {vis : List Node} :
    ∀ {adj : List (Node × Wt)} {pq : List (Wt × Node)}
      {dist : NMap (Option Wt)} {par : NMap (Option Node)}
      {pq2 : List (Wt × Node)} {dist2 : NMap (Option Wt)}
      {par2 : NMap (Option Node)},
      (NMap.keys adj).Nodup →
      relaxAll cur cd vis adj pq dist par = some (pq2, dist2, par2) →
      (∃ tail, pq2 = pq ++ tail) ∧
      (∀ z ∈ pq2, z ∈ pq ∨
        NMap.find? dist2 (Prod.snd z) = some (some (Prod.fst z))) ∧
      (∀ y,
        (NMap.find? dist2 y = NMap.find? dist y ∧
         NMap.find? par2 y = NMap.find? par y ∧
         (∀ w, (y, w) ∈ adj → y ∉ vis →
           ∃ d0, NMap.find? dist y = some d0 ∧ ltO (cd + w) d0 = false)) ∨
        (∃ w d0, (y, w) ∈ adj ∧ y ∉ vis ∧
          NMap.find? dist y = some d0 ∧ ltO (cd + w) d0 = true ∧
          NMap.find? dist2 y = some (some (cd + w)) ∧
          NMap.find? par2 y = some (some cur) ∧
          (cd + w, y) ∈ pq2)) := by
  intro adj
  induction adj with
  | nil =>
    intro pq dist par pq2 dist2 par2 hnd h
    simp only [relaxAll, Option.some.injEq, Prod.mk.injEq] at h
    obtain ⟨h1, h2, h3⟩ := h
    subst h1
    subst h2
    subst h3
    refine ⟨⟨[], by simp⟩, fun z hz => Or.inl hz,
      fun y => Or.inl ⟨rfl, rfl, fun w hw _ => ?_⟩⟩
    exact absurd hw (List.not_mem_nil _)
  | cons q rest ih =>
    intro pq dist par pq2 dist2 par2 hnd h
    rcases q with ⟨nbr, w'⟩
    rw [NMap.keys_cons, List.nodup_cons] at hnd
    have hnbr : nbr ∉ NMap.keys rest := hnd.1
    have hndr : (NMap.keys rest).Nodup := hnd.2
    by_cases hv : nbr ∈ vis
    · rw [relaxAll, if_pos hv] at h
      obtain ⟨hpre, hprov, hdich⟩ := ih hndr h
      refine ⟨hpre, hprov, fun y => ?_⟩
      rcases hdich y with ⟨h1, h2, h3⟩ |
        ⟨w, d0, hmem, hyv, hd0, hlt, h4, h5, h6⟩
      · refine Or.inl ⟨h1, h2, fun w hw hyv => ?_⟩
        rcases List.mem_cons.mp hw with heq | hw2
        · have hy2 : y = nbr := congrArg Prod.fst heq
          rw [hy2] at hyv
          exact absurd hv hyv
        · exact h3 w hw2 hyv
      · exact Or.inr ⟨w, d0, List.mem_cons_of_mem _ hmem, hyv, hd0, hlt,
          h4, h5, h6⟩
    · rw [relaxAll, if_neg hv] at h
      cases hf : NMap.find? dist nbr with
      | none =>
        simp only [hf] at h
        exact Option.noConfusion h
      | some dOld =>
        simp only [hf] at h
        by_cases hlt : ltO (cd + w') dOld = true
        · rw [if_pos hlt] at h
          obtain ⟨⟨tail, htail⟩, hprov, hdich⟩ := ih hndr h
          have hnbrL : NMap.find? dist2 nbr = some (some (cd + w')) ∧
              NMap.find? par2 nbr = some (some cur) := by
            rcases hdich nbr with ⟨h1, h2, _⟩ |
              ⟨w2, d02, hmem2, _, _, _, _, _, _⟩
            · constructor
              · rw [h1, NMap.find?_insert_self]
              · rw [h2, NMap.find?_insert_self]
            · exact absurd (List.mem_map.mpr ⟨(nbr, w2), hmem2, rfl⟩) hnbr
          refine ⟨⟨(cd + w', nbr) :: tail, by
            rw [htail, List.append_assoc]
            rfl⟩, ?_, ?_⟩
          · intro z hz
            rcases hprov z hz with hz1 | hz2
            · rcases List.mem_append.mp hz1 with hz3 | hz3
              · exact Or.inl hz3
              · have hz4 : z = (cd + w', nbr) := List.mem_singleton.mp hz3
                subst hz4
                exact Or.inr hnbrL.1
            · exact Or.inr hz2
          · intro y
            by_cases hy : y = nbr
            · subst hy
              refine Or.inr ⟨w', dOld, List.mem_cons_self _ _, hv, hf, hlt,
                hnbrL.1, hnbrL.2, ?_⟩
              rw [htail]
              exact List.mem_append_left _ (List.mem_append_right _ (by simp))
            · rcases hdich y with ⟨h1, h2, h3⟩ |
                ⟨w2, d02, hmem2, hyv2, hd02, hlt2, h4, h5, h6⟩
              · refine Or.inl ⟨?_, ?_, ?_⟩
                · rw [h1, NMap.find?_insert_ne _ _ hy]
                · rw [h2, NMap.find?_insert_ne _ _ hy]
                · intro w hw hyv
                  rcases List.mem_cons.mp hw with heq | hw2
                  · exact absurd (congrArg Prod.fst heq) hy
                  · obtain ⟨d0, hd0, hlt0⟩ := h3 w hw2 hyv
                    rw [NMap.find?_insert_ne _ _ hy] at hd0
                    exact ⟨d0, hd0, hlt0⟩
              · rw [NMap.find?_insert_ne _ _ hy] at hd02
                exact Or.inr ⟨w2, d02, List.mem_cons_of_mem _ hmem2, hyv2,
                  hd02, hlt2, h4, h5, h6⟩
        · rw [if_neg hlt] at h
          obtain ⟨hpre, hprov, hdich⟩ := ih hndr h
          refine ⟨hpre, hprov, fun y => ?_⟩
          by_cases hy : y = nbr
          · subst hy
            rcases hdich y with ⟨h1, h2, h3⟩ |
              ⟨w2, d02, hmem2, hyv2, hd02, hlt2, h4, h5, h6⟩
            · refine Or.inl ⟨h1, h2, fun w hw hyv => ?_⟩
              rcases List.mem_cons.mp hw with heq | hw2
              · have hw' : w = w' := congrArg Prod.snd heq
                subst hw'
                refine ⟨dOld, hf, ?_⟩
                simp only [Bool.not_eq_true] at hlt
                exact hlt
              · exact h3 w hw2 hyv
            · exact absurd (List.mem_map.mpr ⟨(y, w2), hmem2, rfl⟩) hnbr
          · rcases hdich y with ⟨h1, h2, h3⟩ |
              ⟨w2, d02, hmem2, hyv2, hd02, hlt2, h4, h5, h6⟩
            · refine Or.inl ⟨h1, h2, fun w hw hyv => ?_⟩
              rcases List.mem_cons.mp hw with heq | hw2
              · exact absurd (congrArg Prod.fst heq) hy
              · exact h3 w hw2 hyv
            · exact Or.inr ⟨w2, d02, List.mem_cons_of_mem _ hmem2, hyv2,
                hd02, hlt2, h4, h5, h6⟩

/-- A walk from a visited start to an unvisited target crosses the visited
frontier: some visited node has a stored edge to an unvisited node, and the
walk up to that visited node plus the edge weighs no more than the whole
walk. -/
theorem walk_crossing {g : Graph} (hpos : PosP g) {vis : List Node}
    {s : Node} (hs : s ∈ vis) :
    ∀ {u : Node} {q : List Node}, Walk g s u q → u ∉ vis →
      ∃ a y wa q0, a ∈ vis ∧ y ∉ vis ∧ lookup2 g a y = some wa ∧
        Walk g s a q0 ∧ walkW g q0 + wa ≤ walkW g q := by
  intro u q hw
  induction hw with
  | single =>
    intro hu
    exact absurd hs hu
  | snoc w hw2 he ih =>
    rename_i u2 v2 p2
    intro hv2
    by_cases hu2 : u2 ∈ vis
    · exact ⟨u2, v2, w, p2, hu2, hv2, he, hw2, by rw [walkW_snoc hw2 he]⟩
    · obtain ⟨a, y, wa, q0, ha, hy, hed, hwq0, hle⟩ := ih hu2
      refine ⟨a, y, wa, q0, ha, hy, hed, hwq0, ?_⟩
      rw [walkW_snoc hw2 he]
      have hwpos : 0 < w := hpos _ _ _ he
      linarith

/-- At a pop of an unvisited node under the Dijkstra invariant, the popped
priority equals the node's recorded tentative distance and is below the
weight of every walk from the start to that node. -/
theorem pop_node_spec {g : Graph} {s en : Node} (hpos : PosP g)
    {p : Wt × Node} {ps : List (Wt × Node)} {cd : Wt} {node : Node}
    {pq' : List (Wt × Node)} {dist : NMap (Option Wt)}
    {par : NMap (Option Node)} {vis : List Node}
    (hinv : DInv g s en (p :: ps) dist par vis)
    (hP : popMin p ps = ((cd, node), pq'))
    (hnv : node ∉ vis) :
    NMap.find? dist node = some (some cd) ∧
    (∀ q, Walk g s node q →
      (cd : WithTop Wt) ≤ (walkW g q : WithTop Wt)) := by
  obtain ⟨hmem, hrest, hmin⟩ := popMin_spec hP
  have hlow := hinv.pqLower (cd, node) hmem
  obtain ⟨dn, hdn, hdle⟩ := dval_finite WithTop.coe_ne_top hlow
  have hcov := hinv.pqCover node dn hnv hdn
  have hcd : cd ≤ dn := hmin (dn, node) hcov
  have hdc : cd = dn := le_antisymm hcd (WithTop.coe_le_coe.mp hdle)
  subst hdc
  refine ⟨hdn, ?_⟩
  intro q hq
  by_cases hsv : s ∈ vis
  · obtain ⟨a, y, wa, q0, ha, hy, hed, hwq0, hle⟩ :=
      walk_crossing hpos hsv hq hnv
    have h1 := hinv.visLeast a ha q0 hwq0
    have h2 := hinv.frontier a ha y wa hed hy
    have h3 : dval dist y ≤ ((walkW g q0 + wa : Wt) : WithTop Wt) := by
      calc dval dist y ≤ dval dist a + (wa : WithTop Wt) := h2
        _ ≤ ((walkW g q0 : Wt) : WithTop Wt) + (wa : WithTop Wt) :=
            add_le_add_right h1 _
        _ = ((walkW g q0 + wa : Wt) : WithTop Wt) := by
            rw [WithTop.coe_add]
    have h4 : dval dist y ≤ ((walkW g q : Wt) : WithTop Wt) :=
      h3.trans (WithTop.coe_le_coe.mpr hle)
    obtain ⟨dy, hdy, hdyle⟩ := dval_finite WithTop.coe_ne_top h4
    have hcovy := hinv.pqCover y dy hy hdy
    have hcdy : cd ≤ dy := hmin (dy, y) hcovy
    exact (WithTop.coe_le_coe.mpr hcdy).trans hdyle
  · have hsc := hinv.startCase.resolve_left hsv
    have hnode : node = s := by
      by_contra hne
      have hT := hsc node hne
      rw [dval_eq_coe hdn] at hT
      exact WithTop.coe_ne_top hT
    subst hnode
    have hc0 : cd = 0 := by
      have h5 := hinv.sDist
      rw [hdn] at h5
      exact (Option.some.injEq _ _).mp ((Option.some.injEq _ _).mp h5)
    rw [hc0]
    exact WithTop.coe_le_coe.mpr (walk_nonneg hpos hq)

/-- The continue branch (popping an already-visited node) preserves the
Dijkstra invariant. -/
theorem DInv_skip {g : Graph} {s en : Node}
    {p : Wt × Node} {ps : List (Wt × Node)} {cd : Wt} {node : Node}
    {pq' : List (Wt × Node)} {dist : NMap (Option Wt)}
    {par : NMap (Option Node)} {vis : List Node}
    (hinv : DInv g s en (p :: ps) dist par vis)
    (hP : popMin p ps = ((cd, node), pq'))
    (hv : node ∈ vis) :
    DInv g s en pq' dist par vis := by
  obtain ⟨hmem, hrest, hmin⟩ := popMin_spec hP
  have hsvis : s ∈ vis := by
    by_contra hsv
    have hsc := hinv.startCase.resolve_left hsv
    have hfin := hinv.visFin node hv
    by_cases hns : node = s
    · exact hsv (hns ▸ hv)
    · exact hfin (hsc node hns)
  refine ⟨hinv.keysD, hinv.keysP, hinv.visSub, hinv.visNodup, hinv.jpar,
    hinv.enVis, fun hsv => absurd hsvis hsv, hinv.sDist, Or.inl hsvis,
    hinv.visFin, hinv.visLeast, hinv.tentSound, hinv.frontier, ?_, ?_,
    hinv.parInv, hinv.parNoneS⟩
  · intro y d hy hd
    have h1 := hinv.pqCover y d hy hd
    have hne : (d, y) ≠ (cd, node) := by
      intro hc
      apply hy
      have h2 : y = node := congrArg Prod.snd hc
      rw [h2]
      exact hv
    rw [hrest]
    exact mem_removeFirst_of_ne h1 hne
  · intro z hz
    refine hinv.pqLower z ?_
    rw [hrest] at hz
    exact removeFirst_subset hz

/-- The initial loop state satisfies the full Dijkstra invariant. -/
theorem DInv_init {g : Graph} {s en : Node}
    (hs : (NMap.find? g s).isSome = true) :
    DInv g s en [(0, s)] (initDist g s) (initPar g) [] := by
  refine ⟨initDist_keys g s hs, initPar_keys g, ?_, List.nodup_nil, ?_,
    List.not_mem_nil en, ?_, initDist_find?_self g s, ?_, ?_, ?_, ?_, ?_,
    ?_, ?_, ?_, ?_⟩
  · intro n hn
    simp at hn
  · intro n m hm
    rw [initPar_find? g n] at hm
    by_cases hg : (NMap.find? g n).isSome = true
    · rw [if_pos hg] at hm
      simp at hm
    · rw [if_neg hg] at hm
      simp at hm
  · intro _
    simp
  · refine Or.inr ?_
    intro n hn
    unfold dval
    rw [initDist_find?_ne g s hn]
    by_cases hg : (NMap.find? g n).isSome = true
    · rw [if_pos hg]
    · rw [if_neg hg]
  · intro n hn
    simp at hn
  · intro n hn
    simp at hn
  · intro n d hd
    by_cases hn : n = s
    · subst hn
      rw [initDist_find?_self] at hd
      have hd0 : d = 0 :=
        ((Option.some.injEq _ _).mp ((Option.some.injEq _ _).mp hd)).symm
      subst hd0
      exact ⟨[n], Walk.single, by simp [walkW]⟩
    · rw [initDist_find?_ne g s hn] at hd
      by_cases hg : (NMap.find? g n).isSome = true
      · rw [if_pos hg] at hd
        simp at hd
      · rw [if_neg hg] at hd
        simp at hd
  · intro u hu
    simp at hu
  · intro y d hy hd
    by_cases hn : y = s
    · subst hn
      rw [initDist_find?_self] at hd
      have hd0 : d = 0 :=
        ((Option.some.injEq _ _).mp ((Option.some.injEq _ _).mp hd)).symm
      subst hd0
      simp
    · rw [initDist_find?_ne g s hn] at hd
      by_cases hg : (NMap.find? g y).isSome = true
      · rw [if_pos hg] at hd
        simp at hd
      · rw [if_neg hg] at hd
        simp at hd
  · intro z hz
    have hz1 : z = (0, s) := by simpa using hz
    subst hz1
    rw [show dval (initDist g s) (Prod.snd ((0 : Wt), s)) =
        ((0 : Wt) : WithTop Wt) from dval_eq_coe (initDist_find?_self g s)]
  · intro n m hm
    rw [initPar_find? g n] at hm
    by_cases hg : (NMap.find? g n).isSome = true
    · rw [if_pos hg] at hm
      simp at hm
    · rw [if_neg hg] at hm
      simp at hm
  · intro n d hd hns
    rw [initDist_find?_ne g s hns] at hd
    by_cases hg : (NMap.find? g n).isSome = true
    · rw [if_pos hg] at hd
      simp at hd
    · rw [if_neg hg] at hd
      simp at hd

/-- Expanding an unvisited non-end node preserves the Dijkstra invariant:
the relaxation pass updates exactly the unvisited neighbors whose tentative
distance improves, pushing the improved entries. -/
theorem DInv_step {g : Graph} {s en : Node} (hWF : WFP g) (hpos : PosP g)
    {p : Wt × Node} {ps : List (Wt × Node)} {cd : Wt} {node : Node}
    {pq' : List (Wt × Node)} {dist : NMap (Option Wt)}
    {par : NMap (Option Node)} {vis : List Node} {adj : NMap Wt}
    {pq2 : List (Wt × Node)} {dist2 : NMap (Option Wt)}
    {par2 : NMap (Option Node)}
    (hinv : DInv g s en (p :: ps) dist par vis)
    (hP : popMin p ps = ((cd, node), pq'))
    (hnv : node ∉ vis) (hnen : node ≠ en)
    (hadj : NMap.find? g node = some adj)
    (hrel : relaxAll node cd (node :: vis) adj pq' dist par =
      some (pq2, dist2, par2)) :
    DInv g s en pq2 dist2 par2 (node :: vis) := by
  have hndadj : (NMap.keys adj).Nodup :=
    hWF.2 (node, adj) (NMap.find?_some_mem hadj)
  obtain ⟨hmem, hrest, hmin⟩ := popMin_spec hP
  obtain ⟨hdn, hleast⟩ := pop_node_spec hpos hinv hP hnv
  obtain ⟨⟨tail, htail⟩, hprov, hdich⟩ := relaxAll_spec hndadj hrel
  have hcompat : ∀ n, n ∈ NMap.keys dist → n ∈ NMap.keys par := by
    intro n hn
    rw [hinv.keysP]
    rw [hinv.keysD] at hn
    exact hn
  obtain ⟨hkD, hkP, _, _, _, _⟩ := relaxAll_basic hcompat hrel
  have hsn : s ∈ node :: vis := by
    by_cases hsv : s ∈ vis
    · exact List.mem_cons_of_mem _ hsv
    · have hsc := hinv.startCase.resolve_left hsv
      have hnode : node = s := by
        by_contra hne
        exact WithTop.coe_ne_top
          ((dval_eq_coe hdn).symm.trans (hsc node hne))
      rw [hnode]
      exact List.mem_cons_self _ _
  have hvisU : ∀ y ∈ node :: vis,
      NMap.find? dist2 y = NMap.find? dist y ∧
      NMap.find? par2 y = NMap.find? par y := by
    intro y hy
    rcases hdich y with ⟨h1, h2, _⟩ | ⟨w, d0, _, hyv, _, _, _, _, _⟩
    · exact ⟨h1, h2⟩
    · exact absurd hy hyv
  have hmono : ∀ y, dval dist2 y ≤ dval dist y := by
    intro y
    rcases hdich y with ⟨h1, _, _⟩ | ⟨w, d0, _, _, hd0, hlt, h4, _, _⟩
    · unfold dval
      rw [h1]
    · cases d0 with
      | none =>
        unfold dval
        rw [hd0]
        exact le_top
      | some dy =>
        rw [dval_eq_coe h4, dval_eq_coe hd0]
        have hlt2 : decide (cd + w < dy) = true := hlt
        exact WithTop.coe_le_coe.mpr (le_of_lt (of_decide_eq_true hlt2))
  refine ⟨hkD.trans hinv.keysD, hkP.trans hinv.keysP, ?_, ?_, ?_, ?_, ?_,
    ?_, Or.inl hsn, ?_, ?_, ?_, ?_, ?_, ?_, ?_, ?_⟩
  · intro n hn
    rcases List.mem_cons.mp hn with h | h
    · rw [h, NMap.mem_keys_iff]
      simp [hadj]
    · exact hinv.visSub n h
  · exact List.nodup_cons.mpr ⟨hnv, hinv.visNodup⟩
  · intro n m hm
    rcases hdich n with ⟨_, h2, _⟩ | ⟨w, d0, _, hyv, _, _, _, h5, _⟩
    · rw [h2] at hm
      obtain ⟨pre, post, hV, hnp⟩ := hinv.jpar n m hm
      refine ⟨node :: pre, post, ?_, hnp⟩
      rw [hV]
      rfl
    · rw [h5] at hm
      have hmn : node = m := by simpa using hm
      refine ⟨[], vis, ?_, ?_⟩
      · rw [← hmn]
        rfl
      · rw [← hmn]
        exact hyv
  · intro hc
    rcases List.mem_cons.mp hc with h | h
    · exact hnen h.symm
    · exact hinv.enVis h
  · exact fun hcon => absurd hsn hcon
  · rw [(hvisU s hsn).1]
    exact hinv.sDist
  · intro n hn
    have hfix : dval dist2 n = dval dist n := by
      unfold dval
      rw [(hvisU n hn).1]
    rw [hfix]
    rcases List.mem_cons.mp hn with h | h
    · rw [h, dval_eq_coe hdn]
      exact WithTop.coe_ne_top
    · exact hinv.visFin n h
  · intro n hn q hq
    have hfix : dval dist2 n = dval dist n := by
      unfold dval
      rw [(hvisU n hn).1]
    rw [hfix]
    rcases List.mem_cons.mp hn with h | h
    · subst h
      rw [dval_eq_coe hdn]
      exact hleast q hq
    · exact hinv.visLeast n h q hq
  · intro n d hd
    rcases hdich n with ⟨h1, _, _⟩ | ⟨w, d0, hmemA, hyv, hd0, hlt, h4, h5, _⟩
    · rw [h1] at hd
      exact hinv.tentSound n d hd
    · rw [h4] at hd
      have hdw : cd + w = d :=
        (Option.some.injEq _ _).mp ((Option.some.injEq _ _).mp hd)
      obtain ⟨p0, hw0, hW0⟩ := hinv.tentSound node cd hdn
      have hadjn : NMap.find? adj n = some w :=
        NMap.find?_eq_of_mem hndadj hmemA
      have hlk : lookup2 g node n = some w := by
        rw [lookup2_some_of_find? n hadj]
        exact hadjn
      refine ⟨p0 ++ [n], Walk.snoc w hw0 hlk, ?_⟩
      rw [walkW_snoc hw0 hlk, hW0]
      exact hdw
  · intro u hu y w hlky hy
    rcases List.mem_cons.mp hu with hun | huv
    · subst hun
      have hadjy : NMap.find? adj y = some w := by
        rw [lookup2_some_of_find? y hadj] at hlky
        exact hlky
      have hmemy : (y, w) ∈ adj := NMap.find?_some_mem hadjy
      have hu2 : dval dist2 u = (cd : WithTop Wt) :=
        dval_eq_coe (by
          rw [(hvisU u (List.mem_cons_self _ _)).1]
          exact hdn)
      rcases hdich y with ⟨h1, _, h3⟩ |
        ⟨w2, d0, hmem2, _, hd02, hlt2, h4, _, _⟩
      · obtain ⟨d0, hd0, hlt0⟩ := h3 w hmemy hy
        cases d0 with
        | none => simp [ltO] at hlt0
        | some dy =>
          have hge : decide (cd + w < dy) = false := hlt0
          have hyle : dy ≤ cd + w := le_of_not_lt (of_decide_eq_false hge)
          have hvy : dval dist2 y = (dy : WithTop Wt) := by
            unfold dval
            rw [h1, hd0]
          rw [hvy, hu2, ← WithTop.coe_add]
          exact WithTop.coe_le_coe.mpr hyle
      · have hw2 : w2 = w := by
          have h7 := NMap.find?_eq_of_mem hndadj hmem2
          rw [hadjy] at h7
          exact ((Option.some.injEq _ _).mp h7).symm
        subst hw2
        rw [dval_eq_coe h4, hu2, ← WithTop.coe_add]
    · have hfr := hinv.frontier u huv y w hlky
        (fun hyv => hy (List.mem_cons_of_mem _ hyv))
      have hfix : dval dist2 u = dval dist u := by
        unfold dval
        rw [(hvisU u (List.mem_cons_of_mem _ huv)).1]
      rw [hfix]
      exact (hmono y).trans hfr
  · intro y d hy hd
    rcases hdich y with ⟨h1, _, _⟩ | ⟨w, d0, hmemA, hyv, hd0, hlt, h4, h5, h6⟩
    · rw [h1] at hd
      have h7 := hinv.pqCover y d (fun hc => hy (List.mem_cons_of_mem _ hc)) hd
      have hne2 : (d, y) ≠ (cd, node) := fun hc =>
        hy (by
          have hy2 : y = node := congrArg Prod.snd hc
          rw [hy2]
          exact List.mem_cons_self _ _)
      have h8 : (d, y) ∈ pq' := by
        rw [hrest]
        exact mem_removeFirst_of_ne h7 hne2
      rw [htail]
      exact List.mem_append_left _ h8
    · rw [h4] at hd
      have hdw : cd + w = d :=
        (Option.some.injEq _ _).mp ((Option.some.injEq _ _).mp hd)
      rw [← hdw]
      exact h6
  · intro z hz
    rcases hprov z hz with hz1 | hz2
    · have hz3 : z ∈ p :: ps := by
        rw [hrest] at hz1
        exact removeFirst_subset hz1
      exact (hmono _).trans (hinv.pqLower z hz3)
    · rw [dval_eq_coe hz2]
  · intro n m hm
    rcases hdich n with ⟨h1, h2, _⟩ | ⟨w, d0, hmemA, hyv, hd0, hlt, h4, h5, _⟩
    · rw [h2] at hm
      obtain ⟨hmv, w2, dm, dn2, hlk, hdm, hdn2, hsum⟩ := hinv.parInv n m hm
      refine ⟨List.mem_cons_of_mem _ hmv, w2, dm, dn2, hlk, ?_, ?_, hsum⟩
      · rw [(hvisU m (List.mem_cons_of_mem _ hmv)).1]
        exact hdm
      · rw [h1]
        exact hdn2
    · rw [h5] at hm
      have hmn : node = m := by simpa using hm
      subst hmn
      have hadjn : NMap.find? adj n = some w :=
        NMap.find?_eq_of_mem hndadj hmemA
      refine ⟨List.mem_cons_self _ _, w, cd, cd + w, ?_, ?_, h4, rfl⟩
      · rw [lookup2_some_of_find? n hadj]
        exact hadjn
      · rw [(hvisU node (List.mem_cons_self _ _)).1]
        exact hdn
  · intro n d hd hns
    rcases hdich n with ⟨h1, h2, _⟩ | ⟨_, _, _, _, _, _, _, h5, _⟩
    · rw [h1] at hd
      obtain ⟨m, hm⟩ := hinv.parNoneS n d hd hns
      refine ⟨m, ?_⟩
      rw [h2]
      exact hm
    · exact ⟨node, h5⟩

/-- When the heap is exhausted under the invariant, the end node is
unreachable. -/
theorem DInv_empty_pack {g : Graph} {s en : Node} (hpos : PosP g)
    {dist : NMap (Option Wt)} {par : NMap (Option Node)} {vis : List Node}
    (hinv : DInv g s en [] dist par vis) :
    C1Pack g s en dist par ∨ ¬ Reach g s en := by
  by_cases hsv : s ∈ vis
  · refine Or.inr ?_
    rintro ⟨q, hq⟩
    obtain ⟨a, y, wa, q0, ha, hy, hed, hwq0, hle⟩ :=
      walk_crossing hpos hsv hq hinv.enVis
    have h2 := hinv.frontier a ha y wa hed hy
    obtain ⟨da, hda, _⟩ :=
      dval_finite (hinv.visFin a ha) (le_refl (dval dist a))
    rw [dval_eq_coe hda, ← WithTop.coe_add] at h2
    obtain ⟨dy, hdy, _⟩ := dval_finite WithTop.coe_ne_top h2
    exact absurd (hinv.pqCover y dy hy hdy) (List.not_mem_nil _)
  · exact absurd (hinv.sPq hsv) (List.not_mem_nil _)

/-- Breaking at the end node under the invariant certifies the recorded
end distance. -/
theorem DInv_break_pack {g : Graph} {s en : Node} (hpos : PosP g)
    {p : Wt × Node} {ps : List (Wt × Node)} {cd : Wt}
    {pq' : List (Wt × Node)} {dist : NMap (Option Wt)}
    {par : NMap (Option Node)} {vis : List Node}
    (hinv : DInv g s en (p :: ps) dist par vis)
    (hP : popMin p ps = ((cd, en), pq'))
    (hnv : en ∉ vis) :
    C1Pack g s en dist par := by
  obtain ⟨hdn, hleast⟩ := pop_node_spec hpos hinv hP hnv
  exact ⟨vis, cd, hinv.jpar, hinv.visSub, hinv.visNodup, hinv.keysP,
    hinv.keysD, hinv.sDist, hdn, hleast,
    fun n m hm => (hinv.parInv n m hm).2, hinv.parNoneS⟩

/-- Any successful run of the priority-queue loop from an invariant state
either certifies the recorded end distance as least over all walks, or the
end node is unreachable. -/
theorem dloop_C1 {g : Graph} {s en : Node} (hWF : WFP g) (hpos : PosP g) :
    ∀ fuel pq dist par vis {D : NMap (Option Wt)} {P : NMap (Option Node)},
      DInv g s en pq dist par vis →
      dloop g en fuel pq dist par vis = LoopRes.ok D P →
      C1Pack g s en D P ∨ ¬ Reach g s en := by
  intro fuel
  induction fuel with
  | zero =>
    intro pq dist par vis D P hinv h
    cases pq with
    | nil =>
      simp only [dloop, LoopRes.ok.injEq] at h
      obtain ⟨h1, h2⟩ := h
      subst h1
      subst h2
      exact DInv_empty_pack hpos hinv
    | cons a as => simp [dloop] at h
  | succ f ih =>
    intro pq dist par vis D P hinv h
    cases pq with
    | nil =>
      simp only [dloop, LoopRes.ok.injEq] at h
      obtain ⟨h1, h2⟩ := h
      subst h1
      subst h2
      exact DInv_empty_pack hpos hinv
    | cons p ps =>
      rcases hP : popMin p ps with ⟨⟨cd, node⟩, pq'⟩
      rw [dloop] at h
      simp only [hP] at h
      by_cases hv : node ∈ vis
      · rw [if_pos hv] at h
        exact ih pq' dist par vis (DInv_skip hinv hP hv) h
      · rw [if_neg hv] at h
        by_cases he : node = en
        · rw [if_pos he] at h
          simp only [LoopRes.ok.injEq] at h
          obtain ⟨h1, h2⟩ := h
          subst h1
          subst h2
          subst he
          exact Or.inl (DInv_break_pack hpos hinv hP hv)
        · rw [if_neg he] at h
          cases hf : NMap.find? g node with
          | none =>
            simp only [hf] at h
            exact LoopRes.noConfusion h
          | some adj =>
            simp only [hf] at h
            cases hr : relaxAll node cd (node :: vis) adj pq' dist par with
            | none =>
              simp only [hr] at h
              exact LoopRes.noConfusion h
            | some res =>
              rcases res with ⟨pq2, dist2, par2⟩
              simp only [hr] at h
              exact ih pq2 dist2 par2 (node :: vis)
                (DInv_step hWF hpos hinv hP hv he hf hr) h

/-- Along a reconstruction chain every node keeps a finite recorded
distance. -/
theorem chain_finite {g : Graph} {D : NMap (Option Wt)}
    {P : NMap (Option Node)}
    (hpi : ∀ n m, NMap.find? P n = some (some m) →
      ∃ w dm dn, lookup2 g m n = some w ∧
        NMap.find? D m = some (some dm) ∧
        NMap.find? D n = some (some dn) ∧ dn = dm + w) :
    ∀ (q : List Node) (x : Node), q.head? = some x →
      List.Chain' (fun a b => NMap.find? P a = some (some b)) q →
      (∃ dx, NMap.find? D x = some (some dx)) →
      ∀ y ∈ q, ∃ dy, NMap.find? D y = some (some dy) := by
  intro q
  induction q with
  | nil =>
    intro x _ _ _ y hy
    simp at hy
  | cons a rest ih =>
    intro x hx hch hdx y hy
    have hax : a = x := by simpa using hx
    subst hax
    rcases List.mem_cons.mp hy with h | h
    · rw [h]
      exact hdx
    · cases rest with
      | nil => simp at h
      | cons b rest2 =>
        have hab : NMap.find? P a = some (some b) :=
          (List.chain'_cons.mp hch).1
        have hch2 := (List.chain'_cons.mp hch).2
        obtain ⟨w, dm, dn, _, hdm, _, _⟩ := hpi a b hab
        exact ih b rfl hch2 ⟨dm, hdm⟩ y h

/-- A reconstruction chain read backwards is a walk whose weight is the
recorded distance of its endpoint; recorded distances strictly increase
along it, so it has no repetitions. -/
theorem chain_walk {g : Graph} (hpos : PosP g) {s : Node}
    {D : NMap (Option Wt)} {P : NMap (Option Node)}
    (hs0 : NMap.find? D s = some (some 0))
    (hpi : ∀ n m, NMap.find? P n = some (some m) →
      ∃ w dm dn, lookup2 g m n = some w ∧
        NMap.find? D m = some (some dm) ∧
        NMap.find? D n = some (some dn) ∧ dn = dm + w) :
    ∀ (r : List Node) (u : Node),
      List.Chain' (fun a b => NMap.find? P b = some (some a)) r →
      r.getLast? = some u → r.head? = some s →
      ∃ du, NMap.find? D u = some (some du) ∧ Walk g s u r ∧
        walkW g r = du ∧ r.Nodup ∧
        ∀ x ∈ r, ∃ dx, NMap.find? D x = some (some dx) ∧ dx ≤ du := by
  intro r
  induction r using List.reverseRecOn with
  | nil =>
    intro u _ hl _
    simp at hl
  | append_singleton r' u' ih =>
    intro u hch hl hh
    have huu : u' = u := by simpa using hl
    subst huu
    cases r' with
    | nil =>
      have hsu : u' = s := by simpa using hh
      subst hsu
      refine ⟨0, hs0, Walk.single, by simp [walkW],
        List.nodup_singleton _, ?_⟩
      intro x hx
      have hxu : x = u' := by simpa using hx
      rw [hxu]
      exact ⟨0, hs0, le_refl 0⟩
    | cons b rest =>
      rw [List.chain'_append] at hch
      obtain ⟨hch1, _, hrel⟩ := hch
      obtain ⟨v, hvlast⟩ : ∃ v, (b :: rest).getLast? = some v :=
        ⟨(b :: rest).getLast (by simp),
          List.getLast?_eq_getLast _ (by simp)⟩
      have hRel : NMap.find? P u' = some (some v) := hrel v hvlast u' rfl
      have hbs : b = s := by simpa using hh
      obtain ⟨dv, hdv, hwalk, hwW, hnd, hbound⟩ :=
        ih v hch1 hvlast (by simp [hbs])
      obtain ⟨w, dm, dn, hlk, hdm, hdn, hsum⟩ := hpi u' v hRel
      have hdvm : dv = dm := by
        rw [hdv] at hdm
        exact (Option.some.injEq _ _).mp ((Option.some.injEq _ _).mp hdm)
      have hposw : 0 < w := hpos _ _ _ hlk
      refine ⟨dn, hdn, Walk.snoc w hwalk hlk, ?_, ?_, ?_⟩
      · rw [walkW_snoc hwalk hlk, hwW, hsum, ← hdvm]
      · have hu'new : u' ∉ b :: rest := by
          intro hmem
          obtain ⟨dx, hdx, hxle⟩ := hbound u' hmem
          have h9 : dn = dx := by
            rw [hdn] at hdx
            exact (Option.some.injEq _ _).mp
              ((Option.some.injEq _ _).mp hdx)
          rw [hsum, ← hdvm] at h9
          linarith
        refine List.Nodup.append hnd (List.nodup_singleton _) ?_
        intro x hx hy
        have hxu : x = u' := by simpa using hy
        rw [hxu] at hx
        exact hu'new hx
      · intro x hx
        rcases List.mem_append.mp hx with h | h
        · obtain ⟨dx, hdx, hxle⟩ := hbound x h
          refine ⟨dx, hdx, ?_⟩
          rw [hsum, ← hdvm]
          linarith
        · have hxu : x = u' := by simpa using h
          rw [hxu]
          exact ⟨dn, hdn, le_refl _⟩

theorem mem_of_getLast?_eq {α : Type} {l : List α} {a : α}
    (h : l.getLast? = some a) : a ∈ l := by
  induction l with
  | nil => simp at h
  | cons x xs ih =>
    cases xs with
    | nil =>
      simp at h
      simp [h]
    | cons y ys =>
      rw [List.getLast?_cons_cons] at h
      exact List.mem_cons_of_mem _ (ih h)

set_option maxHeartbeats 3000000 in
/-- Evaluation of the whole dijkstra run on the default graph from A to F:
pops follow the Python heap order, and the run ends with distance 12 along
A, C, B, D, E, F. -/
theorem dijkstra_default_AF :
    dijkstra defaultGraph "A" "F" =
      DOut.ok (some 12) ["A", "C", "B", "D", "E", "F"] := by
  have a1 : (0 : ℚ) + 4 = 4 := by norm_num
  have a2 : (0 : ℚ) + 2 = 2 := by norm_num
  have a3 : (2 : ℚ) + 1 = 3 := by norm_num
  have a4 : (2 : ℚ) + 8 = 10 := by norm_num
  have a5 : (2 : ℚ) + 10 = 12 := by norm_num
  have a6 : (3 : ℚ) + 5 = 8 := by norm_num
  have a7 : (8 : ℚ) + 2 = 10 := by norm_num
  have a8 : (8 : ℚ) + 6 = 14 := by norm_num
  have a9 : (10 : ℚ) + 2 = 12 := by norm_num
  have l1 : (3 : ℚ) < 4 := by norm_num
  have l2 : (8 : ℚ) < 10 := by norm_num
  have l3 : (10 : ℚ) < 12 := by norm_num
  have l4 : (12 : ℚ) < 14 := by norm_num
  have l5 : (3 : ℚ) < 10 := by norm_num
  have l6 : (3 : ℚ) < 12 := by norm_num
  have l7 : (4 : ℚ) < 10 := by norm_num
  have l8 : (4 : ℚ) < 12 := by norm_num
  have l9 : (4 : ℚ) < 8 := by norm_num
  have l10 : (10 : ℚ) < 14 := by norm_num
  have n1 : ¬((4 : ℚ) < 2) := by norm_num
  have n2 : ¬((4 : ℚ) < 3) := by norm_num
  have n3 : ¬((10 : ℚ) < 8) := by norm_num
  have n4 : ¬((10 : ℚ) < 10) := by norm_num
  have n5 : ¬((12 : ℚ) < 10) := by norm_num
  have n6 : ¬((12 : ℚ) < 12) := by norm_num
  have n7 : ¬((14 : ℚ) < 12) := by norm_num
  have e1 : ¬((4 : ℚ) = 2) := by norm_num
  have e2 : ¬((4 : ℚ) = 3) := by norm_num
  have e3 : ¬((10 : ℚ) = 8) := by norm_num
  have e4 : ¬((12 : ℚ) = 10) := by norm_num
  have e5 : ¬((14 : ℚ) = 12) := by norm_num
  have s1 : nodeLeB "D" "E" = true := by decide
  have s2 : nodeLeB "E" "F" = true := by decide
  simp [dijkstra, dloop, popMin, findMin, removeFirst, pqMin, pqLeB,
    relaxAll, ltO, initDist, initPar, degSum, buildLoop,
    NMap.find?, NMap.insert, NMap.keys, defaultGraph,
    a1, a2, a3, a4, a5, a6, a7, a8, a9,
    l1, l2, l3, l4, l5, l6, l7, l8, l9, l10,
    n1, n2, n3, n4, n5, n6, n7, e1, e2, e3, e4, e5, s1, s2]

-- Claim theorems.  Each claim of the specification audit gets exactly one
-- theorem below (with counterexample and witness theorems where needed).

/-- C2 (counterexample): on the default graph the code does not return
total weight 10 with path A, C, B, D, E, F; the claimed weight is wrong. -/
theorem claim_C2_counterexample :
    dijkstra defaultGraph "A" "F" ≠
      DOut.ok (some 10) ["A", "C", "B", "D", "E", "F"] := by
  rw [dijkstra_default_AF]
  intro h
  have := (DOut.ok.injEq _ _ _ _).mp h
  simp at this

/-- C2 (amended): on the default graph, dijkstra from A to F returns total
weight 12 via the path A, C, B, D, E, F (12, not 10, is the weight of that
path and the minimum over all paths). -/
theorem claim_C2 :
    dijkstra defaultGraph "A" "F" =
      DOut.ok (some 12) ["A", "C", "B", "D", "E", "F"] :=
  dijkstra_default_AF

/-- C4: for every node X present in the graph, dijkstra(X, X) returns
total weight 0 and the single-element path consisting of X. -/
theorem claim_C4 (g : Graph) (X : Node)
    (hX : (g.find? X).isSome = true) :
    dijkstra g X X = DOut.ok (some 0) [X] :=
  dijkstra_self g X hX

/-- Witness for C4 at a concrete input. -/
theorem claim_C4_witness :
    dijkstra defaultGraph "C" "C" = DOut.ok (some 0) ["C"] :=
  claim_C4 defaultGraph "C" (by decide)

/-- C6 (counterexample): add_edge itself accepts a non-positive weight
without any failure and records the edge; no InvalidWeight error exists at
the edge-insertion operation. -/
theorem claim_C6_counterexample :
    addEdge [] "A" "B" (-1) = [("A", [("B", -1)]), ("B", [("A", -1)])] := by
  decide

/-- C6 (amended): add_edge itself performs no weight validation and stores
any weight, including non-positive ones; the rejection of weights below or
equal to zero happens in the GUI handler add_edge_handler, whose check
refuses such weights before add_edge is ever called. -/
theorem claim_C6 (g : Graph) (a b : Node) (w : Wt) :
    lookup2 (addEdge g a b w) a b = some w ∧
      (w ≤ 0 → handlerWeightOk w = false) := by
  constructor
  · rw [lookup2_addEdge]
    simp
  · intro h
    simp [handlerWeightOk, not_lt.mpr h]

/-- Witness for C6 at a concrete input. -/
theorem claim_C6_witness :
    lookup2 (addEdge [] "A" "B" (-1)) "A" "B" = some (-1) ∧
      handlerWeightOk (-1) = false :=
  ⟨(claim_C6 [] "A" "B" (-1)).1, (claim_C6 [] "A" "B" (-1)).2 (by norm_num)⟩

/-- C5: starting from a well-formed symmetric graph, both add_edge and
remove_edge preserve symmetry, and immediately after add_edge the stored
weight is w in both directions. -/
theorem claim_C5 (g : Graph) (a b : Node) (w : Wt) (hWF : WFP g)
    (hs : Symm g) :
    Symm (addEdge g a b w) ∧ Symm (removeEdge g a b) ∧
      lookup2 (addEdge g a b w) a b = some w ∧
      lookup2 (addEdge g a b w) b a = some w := by
  refine ⟨?_, ?_, ?_, ?_⟩
  · intro x y w'
    rw [lookup2_addEdge, lookup2_addEdge]
    by_cases hc : (x = a ∧ y = b) ∨ (x = b ∧ y = a)
    · have hc' : (y = a ∧ x = b) ∨ (y = b ∧ x = a) := by tauto
      simp [hc, hc']
    · have hc' : ¬((y = a ∧ x = b) ∨ (y = b ∧ x = a)) := by tauto
      simp [hc, hc']
      exact hs x y w'
  · intro x y w'
    rw [lookup2_removeEdge g a b hWF, lookup2_removeEdge g a b hWF]
    by_cases hc : (x = a ∧ y = b) ∨ (x = b ∧ y = a)
    · have hc' : (y = a ∧ x = b) ∨ (y = b ∧ x = a) := by tauto
      simp [hc, hc']
    · have hc' : ¬((y = a ∧ x = b) ∨ (y = b ∧ x = a)) := by tauto
      simp [hc, hc']
      exact hs x y w'
  · rw [lookup2_addEdge]
    simp
  · rw [lookup2_addEdge]
    simp

/-- Witness for C5 at a concrete input. -/
theorem claim_C5_witness :
    Symm (addEdge defaultGraph "A" "B" 3) ∧
      Symm (removeEdge defaultGraph "A" "B") ∧
      lookup2 (addEdge defaultGraph "A" "B" 3) "A" "B" = some 3 ∧
      lookup2 (addEdge defaultGraph "A" "B" 3) "B" "A" = some 3 :=
  claim_C5 defaultGraph "A" "B" 3 (WFP_of_WFB (by decide))
    (Symm_of_SymmB (by decide))

/-- C7: add_edge makes both endpoints members of the graph, stores the
weight in both directions, and a second add_edge on the same endpoints
overwrites the previous weight, leaving exactly the newest one. -/
theorem claim_C7 (g : Graph) (a b : Node) (w w1 w2 : Wt) :
    a ∈ (addEdge g a b w).keys ∧ b ∈ (addEdge g a b w).keys ∧
    lookup2 (addEdge g a b w) a b = some w ∧
    lookup2 (addEdge g a b w) b a = some w ∧
    lookup2 (addEdge (addEdge g a b w1) a b w2) a b = some w2 ∧
    lookup2 (addEdge (addEdge g a b w1) a b w2) b a = some w2 := by
  have hab : lookup2 (addEdge g a b w) a b = some w := by
    rw [lookup2_addEdge]; simp
  have hba : lookup2 (addEdge g a b w) b a = some w := by
    rw [lookup2_addEdge]; simp
  refine ⟨?_, ?_, hab, hba, ?_, ?_⟩
  · exact (NMap.mem_keys_iff _ _).mpr (lookup2_isSome_fst hab)
  · exact (NMap.mem_keys_iff _ _).mpr (lookup2_isSome_fst hba)
  · rw [lookup2_addEdge]; simp
  · rw [lookup2_addEdge]; simp

/-- C8: after remove_edge on a well-formed symmetric graph, the edge is
gone in both directions, every other stored edge is unchanged, the node
set is unchanged, and removing an absent edge is a no-op that returns the
graph unchanged (and raises nothing: remove_edge is a total function). -/
theorem claim_C8 (g : Graph) (a b : Node) (hWF : WFP g) (hs : Symm g) :
    lookup2 (removeEdge g a b) a b = none ∧
    lookup2 (removeEdge g a b) b a = none ∧
    (∀ x y, ¬((x = a ∧ y = b) ∨ (x = b ∧ y = a)) →
      lookup2 (removeEdge g a b) x y = lookup2 g x y) ∧
    (removeEdge g a b).keys = g.keys ∧
    (lookup2 g a b = none → removeEdge g a b = g) := by
  refine ⟨?_, ?_, ?_, keys_removeEdge g a b, ?_⟩
  · rw [lookup2_removeEdge g a b hWF]
    simp
  · rw [lookup2_removeEdge g a b hWF]
    simp
  · intro x y hxy
    rw [lookup2_removeEdge g a b hWF, if_neg hxy]
  · intro hab
    have hba : lookup2 g b a = none := by
      cases hv : lookup2 g b a with
      | none => rfl
      | some w' =>
        have := (hs b a w').mp hv
        rw [hab] at this
        exact absurd this (by simp)
    exact removeEdge_of_absent hab hba

/-- Witness for C8 at a concrete input. -/
theorem claim_C8_witness :
    lookup2 (removeEdge defaultGraph "A" "B") "A" "B" = none ∧
    lookup2 (removeEdge defaultGraph "A" "B") "B" "A" = none ∧
    (∀ x y, ¬((x = "A" ∧ y = "B") ∨ (x = "B" ∧ y = "A")) →
      lookup2 (removeEdge defaultGraph "A" "B") x y =
        lookup2 defaultGraph x y) ∧
    (removeEdge defaultGraph "A" "B").keys = defaultGraph.keys ∧
    (lookup2 defaultGraph "A" "B" = none →
      removeEdge defaultGraph "A" "B" = defaultGraph) :=
  claim_C8 defaultGraph "A" "B" (WFP_of_WFB (by decide))
    (Symm_of_SymmB (by decide))

/-- C9: dijkstra terminates for every graph and every pair of identifiers.
The fuel of the priority-queue loop, 2 plus the total adjacency size, is an
explicit bound on its pops (each node is expanded at most once and a push
happens only for a strict improvement of an unvisited neighbor during such
an expansion), and the parent-chain length bounds the reconstruction loop,
so the fuel markers are never returned. -/
theorem claim_C9 (g : Graph) (s e : Node) : dijkstra g s e ≠ DOut.fuelOut := by
  unfold dijkstra
  by_cases hs : (NMap.find? g s).isSome = true
  · by_cases he : (NMap.find? g e).isSome = true
    · have hcond : ¬((NMap.find? g s).isNone = true ∨
          (NMap.find? g e).isNone = true) :=
        fun hc => hc.elim (isNone_absurd hs) (isNone_absurd he)
      rw [if_neg hcond]
      cases hloop : dloop g e (2 + degSum g []) [(0, s)] (initDist g s)
          (initPar g) [] with
      | fuelOut =>
        refine absurd hloop (dloop_ne_fuelOut g e _ _ _ _ _ ?_)
        simp
      | keyErr => simp
      | ok D P =>
        obtain ⟨pqF, V, hfin⟩ := dloop_TInv _ _ _ _ _ (TInv_init hs) hloop
        obtain ⟨acc, hacc⟩ := buildLoop_total hfin he
        have hDe : (NMap.find? D e).isSome = true := by
          rw [← NMap.mem_keys_iff, hfin.keysD, NMap.mem_keys_iff]
          exact he
        obtain ⟨x, hx⟩ := Option.isSome_iff_exists.mp hDe
        cases x with
        | none => simp [hacc, hx]
        | some d => simp [hacc, hx]
    · have hcond : (NMap.find? g s).isNone = true ∨
          (NMap.find? g e).isNone = true := by
        refine Or.inr ?_
        cases hx : NMap.find? g e with
        | none => rfl
        | some v => exact absurd (by simp [hx]) he
      rw [if_pos hcond]
      simp
  · have hcond : (NMap.find? g s).isNone = true ∨
        (NMap.find? g e).isNone = true := by
      refine Or.inl ?_
      cases hx : NMap.find? g s with
      | none => rfl
      | some v => exact absurd (by simp [hx]) hs
    rw [if_pos hcond]
    simp

/-- C3 (counterexample): on a graph whose adjacency mentions a node that is
not a graph key, dijkstra raises a KeyError (at the lookup of the missing
neighbor in the distance dict) instead of returning the no-path sentinel,
so dijkstra is not total over every graph. -/
theorem claim_C3_counterexample :
    dijkstra [("A", [("B", 1)]), ("C", [])] "A" "C" = DOut.keyErr := by
  decide

/-- C3 (amended): on every closed graph (each neighbor mentioned in an
adjacency dict is itself a graph key; symmetric graphs and all graphs
reachable by the program's own edge operations are closed), dijkstra is
total and returns the same sentinel (infinite distance, empty path)
whenever the start or end node is absent or the end node is unreachable
from the start. -/
theorem claim_C3 (g : Graph) (s e : Node) (hcl : ClosedB g = true) :
    (∃ d p, dijkstra g s e = DOut.ok d p) ∧
      (((NMap.find? g s).isNone = true ∨ (NMap.find? g e).isNone = true ∨
          ¬ Reach g s e) → dijkstra g s e = DOut.ok none []) := by
  unfold dijkstra
  by_cases hs : (NMap.find? g s).isSome = true
  · by_cases he : (NMap.find? g e).isSome = true
    · have hcond : ¬((NMap.find? g s).isNone = true ∨
          (NMap.find? g e).isNone = true) :=
        fun hc => hc.elim (isNone_absurd hs) (isNone_absurd he)
      rw [if_neg hcond]
      cases hloop : dloop g e (2 + degSum g []) [(0, s)] (initDist g s)
          (initPar g) [] with
      | fuelOut =>
        refine absurd hloop (dloop_ne_fuelOut g e _ _ _ _ _ ?_)
        simp
      | keyErr =>
        exact absurd hloop
          (dloop_no_keyErr (ClosedP_of_ClosedB hcl) _ _ _ _ _ (TInv_init hs))
      | ok D P =>
        obtain ⟨pqF, V, hfin⟩ := dloop_TInv _ _ _ _ _ (TInv_init hs) hloop
        obtain ⟨acc, hacc⟩ := buildLoop_total hfin he
        have hDe : (NMap.find? D e).isSome = true := by
          rw [← NMap.mem_keys_iff, hfin.keysD, NMap.mem_keys_iff]
          exact he
        obtain ⟨x, hx⟩ := Option.isSome_iff_exists.mp hDe
        cases x with
        | none =>
          refine ⟨⟨none, [], by simp [hacc, hx]⟩, ?_⟩
          intro hc
          simp [hacc, hx]
        | some d =>
          refine ⟨⟨some d, acc.reverse, by simp [hacc, hx]⟩, ?_⟩
          intro hc
          rcases hc with hc | hc | hc
          · exact absurd hc (isNone_absurd hs)
          · exact absurd hc (isNone_absurd he)
          · exact absurd (hfin.reachDist e d hx) hc
    · have hcond : (NMap.find? g s).isNone = true ∨
          (NMap.find? g e).isNone = true := by
        refine Or.inr ?_
        cases hx : NMap.find? g e with
        | none => rfl
        | some v => exact absurd (by simp [hx]) he
      rw [if_pos hcond]
      exact ⟨⟨none, [], rfl⟩, fun _ => rfl⟩
  · have hcond : (NMap.find? g s).isNone = true ∨
        (NMap.find? g e).isNone = true := by
      refine Or.inl ?_
      cases hx : NMap.find? g s with
      | none => rfl
      | some v => exact absurd (by simp [hx]) hs
    rw [if_pos hcond]
    exact ⟨⟨none, [], rfl⟩, fun _ => rfl⟩

/-- Witness for C3 at a concrete input: an unknown end node on the default
graph yields the no-path sentinel. -/
theorem claim_C3_witness : dijkstra defaultGraph "A" "Z" = DOut.ok none [] :=
  (claim_C3 defaultGraph "A" "Z" (by decide)).2 (Or.inr (Or.inl (by decide)))

/-- C10: add_edge(a, a, w) is accepted without error and records the
self-loop graph[a][a] = w, and the self-loop never affects dijkstra: for
every start/end pair the result equals the result on the same graph with
the self-loop removed again (by the program's own remove_edge), because a
neighbor equal to the just-visited node is always in the visited set, so a
self-loop edge is never relaxed. -/
theorem claim_C10 (g : Graph) (a : Node) (w : Wt) (s e : Node) :
    lookup2 (addEdge g a a w) a a = some w ∧
    dijkstra (addEdge g a a w) s e =
      dijkstra (removeEdge (addEdge g a a w) a a) s e := by
  constructor
  · rw [lookup2_addEdge]
    simp
  · obtain ⟨hkeys, hdeg, hne, hA⟩ := removeEdge_addEdge_self_spec g a w
    exact dijkstra_eq_of_equiv hkeys hdeg hne (Or.inr hA) s e

/-- C1: for every well-formed symmetric graph with strictly positive
weights and every start/end pair of member nodes connected by some path,
dijkstra returns a total weight and a path such that the path is a
repetition-free walk from start to end whose edge weights sum to the
returned weight, and the returned weight is below the weight of every walk
(hence of every simple path) from start to end — so it equals the minimum
over all simple paths. -/
theorem claim_C1 (g : Graph) (s e : Node)
    (hWFb : WFB g = true) (hsymb : SymmB g = true) (hposb : PosB g = true)
    (hs : (NMap.find? g s).isSome = true)
    (he : (NMap.find? g e).isSome = true)
    (hreach : Reach g s e) :
    ∃ de path, dijkstra g s e = DOut.ok (some de) path ∧
      Walk g s e path ∧ walkW g path = de ∧ path.Nodup ∧
      ∀ q, Walk g s e q → de ≤ walkW g q := by
  have hWF : WFP g := WFP_of_WFB hWFb
  have hsym : Symm g := Symm_of_SymmB hsymb
  have hpos : PosP g := PosP_of_PosB hposb
  have hcl : ClosedP g := ClosedP_of_Symm hWF hsym
  by_cases hse : s = e
  · subst hse
    refine ⟨0, [s], dijkstra_self g s hs, Walk.single, by simp [walkW],
      List.nodup_singleton _, ?_⟩
    intro q hq
    exact walk_nonneg hpos hq
  · have hcond : ¬((NMap.find? g s).isNone = true ∨
        (NMap.find? g e).isNone = true) := by
      rintro (hc | hc)
      · rw [Option.isNone_iff_eq_none] at hc
        rw [hc] at hs
        simp at hs
      · rw [Option.isNone_iff_eq_none] at hc
        rw [hc] at he
        simp at he
    cases hdl : dloop g e (2 + degSum g []) [(0, s)] (initDist g s)
        (initPar g) [] with
    | fuelOut =>
      refine absurd hdl (dloop_ne_fuelOut g e _ _ _ _ _ ?_)
      simp only [List.length_cons, List.length_nil]
      omega
    | keyErr =>
      exact absurd hdl (dloop_no_keyErr hcl _ _ _ _ _ (TInv_init hs))
    | ok D P =>
      have hpack : C1Pack g s e D P := by
        rcases dloop_C1 hWF hpos _ _ _ _ _ (DInv_init hs) hdl with h | h
        · exact h
        · exact absurd hreach h
      obtain ⟨V, de, hjp, hVsub, hVnd, hkP, hkD, hsD, heD, hleast, hpi,
        hpns⟩ := hpack
      have hkeys : ∀ n ∈ V, (NMap.find? P n).isSome = true := by
        intro n hn
        rw [← NMap.mem_keys_iff, hkP]
        exact hVsub n hn
      have hVlen : V.length < g.length + 1 := by
        have h1 : V.length ≤ (NMap.keys g).length := nodup_length_le hVnd hVsub
        have h2 : (NMap.keys g).length = g.length := List.length_map _ _
        omega
      have hePar : (NMap.find? P e).isSome = true := by
        rw [← NMap.mem_keys_iff, hkP, NMap.mem_keys_iff]
        exact he
      have hparents : ∀ m, NMap.find? P e = some (some m) → m ∈ V := by
        intro m hm
        obtain ⟨pre, post, hV, _⟩ := hjp e m hm
        rw [hV]
        simp
      obtain ⟨q, hq, hqhead, hqchain, z, hqlast, hzpar⟩ :=
        buildLoop_ok hjp hkeys (g.length + 1) V e [] (List.suffix_refl V)
          hparents hVlen hePar
      have hfinq : ∀ y ∈ q, ∃ dy, NMap.find? D y = some (some dy) :=
        chain_finite hpi q e hqhead hqchain ⟨de, heD⟩
      obtain ⟨dz, hdz⟩ := hfinq z (mem_of_getLast?_eq hqlast)
      have hzs : z = s := by
        by_contra hzs
        obtain ⟨m, hm⟩ := hpns z dz hdz hzs
        rw [hzpar] at hm
        simp at hm
      have hrev : List.Chain' (fun a b => NMap.find? P b = some (some a))
          q.reverse := by
        rw [List.chain'_reverse]
        exact hqchain
      have hrhead : q.reverse.head? = some s := by
        rw [List.head?_reverse, hqlast, hzs]
      have hrlast : q.reverse.getLast? = some e := by
        rw [List.getLast?_reverse]
        exact hqhead
      obtain ⟨du, hdu, hwalk, hwW, hnodup, _⟩ :=
        chain_walk hpos hsD hpi q.reverse e hrev hrlast hrhead
      have hdue : du = de := by
        rw [heD] at hdu
        exact ((Option.some.injEq _ _).mp
          ((Option.some.injEq _ _).mp hdu)).symm
      subst hdue
      refine ⟨du, q.reverse, ?_, hwalk, hwW, hnodup, ?_⟩
      · unfold dijkstra
        rw [if_neg hcond]
        simp only [hdl, hq, heD, List.nil_append]
      · intro q2 hq2
        exact WithTop.coe_le_coe.mp (hleast q2 hq2)

/-- Witness for C1 at a concrete input: the default graph is well-formed,
symmetric and positive, A and F are members, and the walk A, B, D, F
connects them. -/
theorem claim_C1_witness :
    ∃ de path, dijkstra defaultGraph "A" "F" = DOut.ok (some de) path ∧
      Walk defaultGraph "A" "F" path ∧ walkW defaultGraph path = de ∧
      path.Nodup ∧
      ∀ q, Walk defaultGraph "A" "F" q → de ≤ walkW defaultGraph q :=
  claim_C1 defaultGraph "A" "F" (by decide) (by decide) (by decide)
    (by decide) (by decide)
    ⟨((["A"] ++ ["B"]) ++ ["D"]) ++ ["F"],
      Walk.snoc 6
        (Walk.snoc 5
          (Walk.snoc 4 Walk.single (by decide))
          (by decide))
        (by decide)⟩
